import Mathlib

/-!
Shallow embedding of the sensor anomaly-scoring pipeline of this repository
(`src/predictive_maintenance/pipeline.py` and
`src/predictive_maintenance/anomaly_detection.py`), together with theorems
settling the specification claims about it.

Modelling conventions
* A dataframe is a `List` of rows; a row is a structure.
* `machine_id` and `timestamp` are modelled as `Nat`: the pipeline only ever
  uses equality and ordering on them.
* Real-valued sensor cells are modelled as `Option ℚ`; `none` models a
  missing value (`NaN`).  pandas reductions (`mean`, `std`, `quantile`)
  skip `NaN`, comparisons with `NaN` are false, `fillna`/`ffill`/`bfill`
  replace it; all of that is made explicit below.
* Quantities whose pandas computation passes through a square root
  (`std`, hence the z-score) are modelled by their squares, which are
  rational: the sources only use them through `std == 0`, `std` is `NaN`,
  and `|z| > threshold`, and each of those is exactly expressible in the
  squared model (`|z| > t  ↔  z² > t²` for `t ≥ 0`).
-/

namespace PredMaint

/-- The five numeric sensor columns, the keys of `VALUE_RANGES`
(pipeline.py lines 35-41). -/
inductive Sensor where
  | temperature_c
  | vibration_mm_s
  | pressure_bar
  | cycle_time_s
  | operating_hours
deriving DecidableEq

open Sensor

/-- The column list `list(VALUE_RANGES.keys())` used by the cleaning and
feature stages (pipeline.py lines 115, 160), in source order. -/
def numericCols : List Sensor :=
  [temperature_c, vibration_mm_s, pressure_bar, cycle_time_s, operating_hours]

/-- `SENSOR_COLS` (anomaly_detection.py lines 45-50): the sensors scored for
anomalies (everything except `operating_hours`). -/
def SENSOR_COLS : List Sensor :=
  [temperature_c, vibration_mm_s, pressure_bar, cycle_time_s]

/-- `VALUE_RANGES` (pipeline.py lines 35-41): the closed physically-plausible
interval for each sensor. -/
def VALUE_RANGES : Sensor → ℚ × ℚ
  | temperature_c   => (0, 200)
  | vibration_mm_s  => (0, 50)
  | pressure_bar    => (0, 30)
  | cycle_time_s    => (1/10, 120)
  | operating_hours => (0, 100000)

/-- `WINDOW_SIZE = 10` (pipeline.py line 43). -/
def WINDOW_SIZE : Nat := 10

instance : Fintype Sensor where
  elems := ⟨[temperature_c, vibration_mm_s, pressure_bar, cycle_time_s,
             operating_hours], by decide⟩
  complete := fun s => by cases s <;> decide

theorem mem_numericCols (s : Sensor) : s ∈ numericCols := by
  cases s <;> decide

/-- One row of the working table.  `label` is carried along untouched by
every stage, so a `Bool` stands in for the 0/1 ground-truth column. -/
structure Row where
  machine_id : Nat
  timestamp : Nat
  label : Bool
  sensors : Sensor → Option ℚ

instance : DecidableEq Row := fun r₁ r₂ =>
  decidable_of_iff
    (r₁.machine_id = r₂.machine_id ∧ r₁.timestamp = r₂.timestamp ∧
      r₁.label = r₂.label ∧ r₁.sensors = r₂.sensors)
    (by cases r₁; cases r₂; simp [Row.mk.injEq])

/-- The deduplication key `["timestamp", "machine_id"]`
(pipeline.py line 110). -/
def dkey (r : Row) : Nat × Nat := (r.timestamp, r.machine_id)

/-- The sort key `["machine_id", "timestamp"]` (pipeline.py line 114). -/
def skey (r : Row) : Nat × Nat := (r.machine_id, r.timestamp)

/-- Lexicographic order on the sort key: how pandas orders rows for
`sort_values(["machine_id", "timestamp"])`. -/
def keyLE (a b : Nat × Nat) : Prop :=
  a.1 < b.1 ∨ (a.1 = b.1 ∧ a.2 ≤ b.2)

instance : DecidableRel keyLE := fun a b => by
  unfold keyLE; infer_instance

/-- Row comparison used by the sorting steps. -/
def sle (r₁ r₂ : Row) : Prop := keyLE (skey r₁) (skey r₂)

instance : DecidableRel sle := fun a b => by
  unfold sle; infer_instance

instance : IsTotal Row sle :=
  ⟨fun a b => by unfold sle keyLE; omega⟩

instance : IsTrans Row sle :=
  ⟨fun a b c hab hbc => by unfold sle keyLE at *; omega⟩

theorem dkey_eq_iff_skey_eq {r₁ r₂ : Row} : dkey r₁ = dkey r₂ ↔ skey r₁ = skey r₂ := by
  unfold dkey skey
  constructor <;> (intro h; injection h with h1 h2; simp [h1, h2])

/-- `df.drop_duplicates(subset=["timestamp", "machine_id"], inplace=True)`
(pipeline.py line 110): `keep="first"` retains, for every key, the first
occurrence in the current order of the table. -/
def dedupFirst : List Row → List Row
  | [] => []
  | x :: xs =>
      x :: dedupFirst (xs.filter fun y => !decide (dkey y = dkey x))
termination_by l => l.length
decreasing_by
  simp only [List.length_cons]
  exact Nat.lt_succ_of_le (List.length_filter_le _ _)

/-- Pointwise update of one sensor cell of a row. -/
def setS (r : Row) (s : Sensor) (v : Option ℚ) : Row :=
  { r with sensors := fun t => if t = s then v else r.sensors t }

/-- Forward fill of one column, grouped by `machine_id`: a missing cell takes
the value of the nearest preceding row of the same machine.  The state
function `last` carries the most recent value seen for each machine. -/
def ffillAux (s : Sensor) (last : Nat → Option ℚ) : List Row → List Row
  | [] => []
  | r :: rs =>
      let v : Option ℚ :=
        match r.sensors s with
        | some x => some x
        | none => last r.machine_id
      setS r s v ::
        ffillAux s (fun m => if m = r.machine_id then v else last m) rs

/-- `s.ffill()` inside the `groupby("machine_id")` transform
(pipeline.py line 118). -/
def ffillCol (s : Sensor) (rows : List Row) : List Row :=
  ffillAux s (fun _ => none) rows

/-- `s.bfill()` inside the same transform: a backward fill is a forward fill
of the reversed table. -/
def bfillCol (s : Sensor) (rows : List Row) : List Row :=
  (ffillAux s (fun _ => none) rows.reverse).reverse

/-- `df[numeric_cols].mean()` for one column (pipeline.py line 119): the
global mean across all machines, skipping missing values; `none` when the
whole column is missing (the pandas mean of an all-NaN column is NaN). -/
def colMean (rows : List Row) (s : Sensor) : Option ℚ :=
  if (rows.filterMap fun r => r.sensors s) = [] then none
  else some ((rows.filterMap fun r => r.sensors s).sum /
    ((rows.filterMap fun r => r.sensors s).length : ℚ))

/-- `.fillna(mean)` for one column: a missing cell is replaced by the fill
value; a `NaN` fill value (here `none`) fills nothing. -/
def fillnaCol (s : Sensor) (m : Option ℚ) (rows : List Row) : List Row :=
  rows.map fun r =>
    match r.sensors s, m with
    | none, some x => setS r s (some x)
    | _, _ => r

/-- The missing-value assignment of pipeline.py lines 116-120: per column,
group-wise forward fill, then backward fill, then global-mean fill.  The
fill means are taken from `rows` as given (the pre-fill values), exactly as
`df[numeric_cols].mean()` is evaluated on the unfilled frame. -/
def fillMissing (rows : List Row) : List Row :=
  numericCols.foldl
    (fun acc s => fillnaCol s (colMean rows s) (bfillCol s (ffillCol s acc)))
    rows

/-- `df[col].clip(lower=lo, upper=hi)` (pipeline.py line 126) for one column:
values are truncated into `[lo, hi]`; missing cells stay missing (pandas
`clip` propagates NaN). -/
def clipCol (s : Sensor) (rows : List Row) : List Row :=
  rows.map fun r =>
    match r.sensors s with
    | none => r
    | some x =>
        setS r s (some (min (max x (VALUE_RANGES s).1) (VALUE_RANGES s).2))

/-- The clipping loop of pipeline.py lines 125-126. -/
def clipAll (rows : List Row) : List Row :=
  numericCols.foldl (fun acc s => clipCol s acc) rows

/-- The deduplicate-then-sort prefix of `clean_data`
(pipeline.py lines 110 and 114).  After deduplication all sort keys are
distinct, so the pandas sort (whatever its pivoting) has exactly one
possible output, the one `List.insertionSort` computes. -/
def cleanDedupSort (df : List Row) : List Row :=
  List.insertionSort sle (dedupFirst df)

/-- `clean_data` (pipeline.py lines 88-129): deduplicate on
`(timestamp, machine_id)`, sort by `(machine_id, timestamp)`, fill missing
values, clip into the valid ranges. -/
def clean_data (df : List Row) : List Row :=
  clipAll (fillMissing (cleanDedupSort df))

/-! ### Feature stage (pipeline.py lines 136-175) -/

/-- One row after `engineer_features`: the base row plus, per sensor, the
columns `<sensor>_roll_mean`, `<sensor>_roll_std` and `<sensor>_diff`.
The standard deviation is modelled by its square `roll_var` (the sample
variance of the trailing window, with the `fillna(0)` of line 168 applied):
`<sensor>_roll_std = sqrt roll_var`, and the square root preserves
definedness and zero, the only facts the claims use. -/
structure FRow where
  row : Row
  roll_mean : Sensor → Option ℚ
  roll_var : Sensor → ℚ
  diff : Sensor → ℚ

/-- The cells of column `s` of the machine-`m` partition restricted to the
first `i + 1` rows of the sorted table: what a trailing group-wise window
ending at global position `i` can see. -/
def groupPrefix (sorted : List Row) (i : Nat) (m : Nat) (s : Sensor) :
    List (Option ℚ) :=
  ((sorted.take (i + 1)).filter fun r => decide (r.machine_id = m)).map
    fun r => r.sensors s

/-- The observations inside a trailing window of `w` rows: the last
`min w (length p)` cells, skipping missing ones, exactly as
`rolling(w, min_periods=1)` does. -/
def windowVals (w : Nat) (p : List (Option ℚ)) : List ℚ :=
  (p.drop (p.length - w)).filterMap id

/-- `rolling(w, min_periods=1).mean()` at one position: the mean of the
window observations, `NaN` when there are none. -/
def rollMean (w : Nat) (p : List (Option ℚ)) : Option ℚ :=
  if windowVals w p = [] then none
  else some ((windowVals w p).sum / ((windowVals w p).length : ℚ))

/-- Sample variance (`ddof = 1`) of a list of observations. -/
def sampleVar (vs : List ℚ) : ℚ :=
  ((vs.map fun x => (x - vs.sum / vs.length) ^ 2).sum) / ((vs.length : ℚ) - 1)

/-- `rolling(w, min_periods=1).std().fillna(0)` at one position, squared:
with fewer than two observations the pandas standard deviation is `NaN`
and the `fillna(0)` turns it into `0`. -/
def rollVar (w : Nat) (p : List (Option ℚ)) : ℚ :=
  if (windowVals w p).length < 2 then 0 else sampleVar (windowVals w p)

/-- `s.diff().fillna(0)` at one position: current cell minus the previous
cell of the same machine; `0` whenever either is missing (in particular on
the first row of every partition). -/
def diffVal (p : List (Option ℚ)) : ℚ :=
  match p.getLast?, p.dropLast.getLast? with
  | some (some a), some (some b) => a - b
  | _, _ => 0

/-- The derived columns of the row at position `i` of the sorted table. -/
def mkFRow (w : Nat) (sorted : List Row) (i : Nat) (r : Row) : FRow :=
  { row := r
    roll_mean := fun s => rollMean w (groupPrefix sorted i r.machine_id s)
    roll_var := fun s => rollVar w (groupPrefix sorted i r.machine_id s)
    diff := fun s => diffVal (groupPrefix sorted i r.machine_id s) }

/-- `engineer_features` (pipeline.py lines 136-175) with the window size as
a parameter: sort by `(machine_id, timestamp)`, then derive the rolling
mean, rolling standard deviation and first difference per machine per
sensor. -/
def engineer_features_w (w : Nat) (df : List Row) : List FRow :=
  let sorted := List.insertionSort sle df
  sorted.enum.map fun ir => mkFRow w sorted ir.1 ir.2

/-- `engineer_features` at the source's fixed `WINDOW_SIZE`. -/
def engineer_features (df : List Row) : List FRow :=
  engineer_features_w WINDOW_SIZE df

/-! ### Z-score scorer (anomaly_detection.py lines 57-112) -/

/-- The non-missing observations of column `s` in the machine-`m`
partition: what `groupby("machine_id")[col]` aggregations see. -/
def partitionVals (df : List Row) (m : Nat) (s : Sensor) : List ℚ :=
  (df.filter fun r => decide (r.machine_id = m)).filterMap fun r => r.sensors s

/-- `grp.transform("mean")` for the machine-`m` partition: `NaN` when the
partition has no observations. -/
def pMean (df : List Row) (m : Nat) (s : Sensor) : Option ℚ :=
  if partitionVals df m s = [] then none
  else some ((partitionVals df m s).sum / ((partitionVals df m s).length : ℚ))

/-- `grp.transform("std")` squared: the sample variance of the partition,
`NaN` (`none`) with fewer than two observations. -/
def pVar (df : List Row) (m : Nat) (s : Sensor) : Option ℚ :=
  if (partitionVals df m s).length < 2 then none
  else some (sampleVar (partitionVals df m s))

/-- `grp.transform("std").replace(0, np.nan)` squared: the effective
denominator of the z-score; `none` models the `NaN` that a zero or
undefined standard deviation turns into (std is zero iff the variance
is). -/
def pDenomSq (df : List Row) (m : Nat) (s : Sensor) : Option ℚ :=
  match pVar df m s with
  | none => none
  | some v => if v = 0 then none else some v

/-- One row after `compute_z_scores`: the base row plus the squared
`<col>_zscore` columns.  `z = (x − mean)/std`, so
`zscore_sq = (x − mean)²/var`; the `.fillna(0)` of line 81 makes any `NaN`
(missing cell, empty partition, or zero/undefined std) into `0`, and
squaring loses only the sign, which no downstream consumer reads
(flagging uses `abs`). -/
structure ZRow where
  row : Row
  zscore_sq : Sensor → ℚ

/-- `compute_z_scores` (anomaly_detection.py lines 57-83).  The source
creates a `<col>_zscore` column only for `col in cols`; an absent column is
modelled as the constant `0`, which nothing downstream reads. -/
def compute_z_scores (df : List Row) (cols : List Sensor) : List ZRow :=
  df.map fun r =>
    { row := r
      zscore_sq := fun s =>
        if s ∈ cols then
          match r.sensors s, pMean df r.machine_id s,
              pDenomSq df r.machine_id s with
          | some x, some μ, some v => (x - μ) ^ 2 / v
          | _, _, _ => 0
        else 0 }

/-- One row after `flag_zscore_anomalies`. -/
structure ZFRow where
  zrow : ZRow
  anomaly_zscore : Bool

/-- `flag_zscore_anomalies` (anomaly_detection.py lines 86-112):
`(df[zscore_cols].abs() > threshold).any(axis=1)`.  In the squared model
`|z| > t` is `t < 0` (then every row is flagged) or `z² > t²`. -/
def flag_zscore_anomalies (zdf : List ZRow) (cols : List Sensor)
    (threshold : ℚ) : List ZFRow :=
  zdf.map fun zr =>
    { zrow := zr
      anomaly_zscore :=
        cols.any fun s =>
          decide (threshold < 0) || decide (threshold ^ 2 < zr.zscore_sq s) }

/-! ### IQR scorer (anomaly_detection.py lines 119-191) -/

/-- The non-missing observations of column `s`, in ascending order: what
`df[col].quantile` ranks (pandas quantile skips `NaN`). -/
def sortedVals (df : List Row) (s : Sensor) : List ℚ :=
  List.insertionSort (· ≤ ·) (df.filterMap fun r => r.sensors s)

/-- Linear interpolation of an ascending list at fractional rank `pos`:
the value `v_i + frac · (v_{i+1} − v_i)` with `i = ⌊pos⌋`. -/
def interpAt (vs : List ℚ) (pos : ℚ) : ℚ :=
  vs.getD (Int.floor pos).toNat 0 +
    (pos - ((Int.floor pos).toNat : ℚ)) *
      (vs.getD ((Int.floor pos).toNat + 1) 0 - vs.getD (Int.floor pos).toNat 0)

/-- The pandas `Series.quantile(q)` with the default linear interpolation on
an ascending list: the value at fractional rank `q * (n − 1)`; `NaN` on an
empty list. -/
def quantileSorted (vs : List ℚ) (q : ℚ) : Option ℚ :=
  if vs = [] then none
  else some (interpAt vs (q * ((vs.length : ℚ) - 1)))

/-- `df[col].quantile(q)` (anomaly_detection.py lines 146-147). -/
def quantile (df : List Row) (s : Sensor) (q : ℚ) : Option ℚ :=
  quantileSorted (sortedVals df s) q

/-- `compute_iqr_bounds` (anomaly_detection.py lines 119-157): per sensor,
globally across all machines, `(Q1 − m·IQR, Q3 + m·IQR)`.  `none` stands
both for a sensor outside `cols` (no entry in the returned dict) and for
`NaN` bounds from an empty column. -/
def compute_iqr_bounds (df : List Row) (cols : List Sensor)
    (multiplier : ℚ) : Sensor → Option (ℚ × ℚ) :=
  fun s =>
    if s ∈ cols then
      match quantile df s (1/4), quantile df s (3/4) with
      | some q1, some q3 =>
          some (q1 - multiplier * (q3 - q1), q3 + multiplier * (q3 - q1))
      | _, _ => none
    else none

/-- The row-level test of `flag_iqr_anomalies` (lines 182-188):
`(df[col] < lower) | (df[col] > upper)` for some checked column.
Comparisons with `NaN` (missing cell or undefined bound) are false. -/
def iqrFlagRow (bounds : Sensor → Option (ℚ × ℚ)) (cols : List Sensor)
    (r : Row) : Bool :=
  cols.any fun s =>
    match bounds s, r.sensors s with
    | some (lo, hi), some v => decide (v < lo) || decide (hi < v)
    | _, _ => false

/-- One row after `flag_iqr_anomalies`. -/
structure IRow where
  zfrow : ZFRow
  anomaly_iqr : Bool

/-- `flag_iqr_anomalies` (anomaly_detection.py lines 160-191). -/
def flag_iqr_anomalies (df : List ZFRow) (bounds : Sensor → Option (ℚ × ℚ))
    (cols : List Sensor) : List IRow :=
  df.map fun zfr =>
    { zfrow := zfr, anomaly_iqr := iqrFlagRow bounds cols zfr.zrow.row }

/-- One row after `combined_anomaly_score`. -/
structure CRow where
  irow : IRow
  anomaly_combined : Bool

/-- `combined_anomaly_score` (anomaly_detection.py lines 198-222):
`anomaly_combined = anomaly_zscore | anomaly_iqr`, row-wise. -/
def combined_anomaly_score (df : List IRow) : List CRow :=
  df.map fun ir =>
    { irow := ir
      anomaly_combined := ir.zfrow.anomaly_zscore || ir.anomaly_iqr }

/-- `run_anomaly_detection` (anomaly_detection.py lines 229-247), with the
configuration surface (sensor list, z threshold, IQR multiplier) as
parameters; the source calls it at the module defaults.  The IQR bounds are
computed from the sensor columns of the frame after z-flagging, which the
earlier stages leave untouched. -/
def run_anomaly_detection (df : List Row) (cols : List Sensor)
    (threshold multiplier : ℚ) : List CRow :=
  let z := compute_z_scores df cols
  let zf := flag_zscore_anomalies z cols threshold
  let bounds := compute_iqr_bounds (zf.map fun x => x.zrow.row) cols multiplier
  let iq := flag_iqr_anomalies zf bounds cols
  combined_anomaly_score iq

/-- The full scoring pipeline (clean → features → scoring), as `main` of
anomaly_detection.py composes it, with every configuration knob explicit. -/
def full_scoring_run (df : List Row) (cols : List Sensor)
    (threshold multiplier : ℚ) (w : Nat) : List CRow :=
  run_anomaly_detection
    ((engineer_features_w w (clean_data df)).map FRow.row)
    cols threshold multiplier

/-! ### Loading and the error taxonomy (pipeline.py lines 50-81) -/

/-- The two raise sites of `load_data`: `FileNotFoundError` (line 71) and
the `ValueError` naming the missing columns (line 78). -/
inductive LoadError where
  | fileNotFound
  | missingColumns (missing : List String)
deriving DecidableEq

/-- The CSV header name of each sensor column. -/
def sensorName : Sensor → String
  | temperature_c   => "temperature_c"
  | vibration_mm_s  => "vibration_mm_s"
  | pressure_bar    => "pressure_bar"
  | cycle_time_s    => "cycle_time_s"
  | operating_hours => "operating_hours"

/-- The required column set of pipeline.py line 75,
`{"timestamp", "machine_id", "label"} | set(VALUE_RANGES.keys())`,
listed in a canonical order (the source holds it as an unordered set). -/
def requiredColumns : List String :=
  ["timestamp", "machine_id", "label"] ++ numericCols.map sensorName

/-- A file as the loader sees it: the header and the parsed table.  The
filesystem is an explicit parameter, a partial map from paths to files. -/
structure RawFile where
  columns : List String
  table : List Row

/-- `load_data` (pipeline.py lines 50-81): `FileNotFoundError` when the path
is absent, `ValueError` naming the missing required columns when the header
is incomplete, otherwise the parsed table. -/
def load_data (fs : String → Option RawFile) (filepath : String) :
    Except LoadError (List Row) :=
  match fs filepath with
  | none => Except.error LoadError.fileNotFound
  | some raw =>
      let missing := requiredColumns.filter fun c => !decide (c ∈ raw.columns)
      if missing.isEmpty then Except.ok raw.table
      else Except.error (LoadError.missingColumns missing)

/-- Load followed by the whole downstream pipeline: every stage after the
load is a total function, so this is the only place an error can arise. -/
def run_full_pipeline (fs : String → Option RawFile) (filepath : String)
    (cols : List Sensor) (threshold multiplier : ℚ) :
    Except LoadError (List CRow) := do
  let df ← load_data fs filepath
  pure (run_anomaly_detection
    ((engineer_features (clean_data df)).map FRow.row)
    cols threshold multiplier)

/-! ### Object-store model of the pandas call discipline

Python passes dataframes by reference, so "no stage mutates its caller's
input" is a statement about the heap.  The heap is modelled as a map from
addresses to tables; each stage's body is rendered as the source writes it:
first `df = df.copy()` (a fresh address receiving the value of the
argument), then its mutations, all of which target the fresh copy. -/

/-- A table at any stage of the pipeline. -/
inductive Table where
  | raw : List Row → Table
  | feat : List FRow → Table
  | z : List ZRow → Table
  | zf : List ZFRow → Table
  | iq : List IRow → Table
  | comb : List CRow → Table

/-- The heap: `none` at unallocated addresses. -/
def Store : Type := Nat → Option Table

/-- An in-place write. -/
def Store.write (σ : Store) (n : Nat) (t : Option Table) : Store :=
  fun x => if x = n then t else σ x

/-- Lift a pure per-table transform to an in-place mutation of address `n`
(a mutating pandas call on the object living there). -/
def Store.mutate (σ : Store) (n : Nat) (f : Table → Table) : Store :=
  σ.write n ((σ n).map f)

/-- In-place `drop_duplicates` on a raw table (pipeline.py line 110). -/
def dedupT : Table → Table
  | Table.raw df => Table.raw (dedupFirst df)
  | t => t

/-- In-place `sort_values` on a raw table (pipeline.py line 114). -/
def sortT : Table → Table
  | Table.raw df => Table.raw (List.insertionSort sle df)
  | t => t

/-- The missing-value assignment (pipeline.py lines 116-120). -/
def fillT : Table → Table
  | Table.raw df => Table.raw (fillMissing df)
  | t => t

/-- The clipping loop (pipeline.py lines 125-126). -/
def clipT : Table → Table
  | Table.raw df => Table.raw (clipAll df)
  | t => t

/-- `clean_data` on the heap: copy the argument at address `a` to the fresh
address `next`, then mutate the copy in place, step by step as the source
does.  Returns the new heap, the new allocation bound and the address of
the result. -/
def clean_data_st (σ : Store) (next a : Nat) : Store × Nat × Nat :=
  let σc := σ.write next (σ a)
  let σ₁ := σc.mutate next dedupT
  let σ₂ := σ₁.mutate next sortT
  let σ₃ := σ₂.mutate next fillT
  let σ₄ := σ₃.mutate next clipT
  (σ₄, next + 1, next)

/-- `engineer_features` on the heap: `df = df.copy().sort_values(...)`
builds a fresh frame, which the feature assignments then mutate. -/
def engineer_features_st (σ : Store) (next a : Nat) : Store × Nat × Nat :=
  let σc := σ.write next ((σ a).map sortT)
  let σ₁ := σc.mutate next fun t =>
    match t with
    | Table.raw df =>
        Table.feat (df.enum.map fun ir => mkFRow WINDOW_SIZE df ir.1 ir.2)
    | t => t
  (σ₁, next + 1, next)

/-- `compute_z_scores` on the heap: copy, then the z-score column
assignments on the copy. -/
def compute_z_scores_st (σ : Store) (next a : Nat) (cols : List Sensor) :
    Store × Nat × Nat :=
  let σc := σ.write next (σ a)
  let σ₁ := σc.mutate next fun t =>
    match t with
    | Table.raw df => Table.z (compute_z_scores df cols)
    | t => t
  (σ₁, next + 1, next)

/-- `flag_zscore_anomalies` on the heap. -/
def flag_zscore_anomalies_st (σ : Store) (next a : Nat) (cols : List Sensor)
    (threshold : ℚ) : Store × Nat × Nat :=
  let σc := σ.write next (σ a)
  let σ₁ := σc.mutate next fun t =>
    match t with
    | Table.z zdf => Table.zf (flag_zscore_anomalies zdf cols threshold)
    | t => t
  (σ₁, next + 1, next)

/-- `flag_iqr_anomalies` on the heap. -/
def flag_iqr_anomalies_st (σ : Store) (next a : Nat)
    (bounds : Sensor → Option (ℚ × ℚ)) (cols : List Sensor) :
    Store × Nat × Nat :=
  let σc := σ.write next (σ a)
  let σ₁ := σc.mutate next fun t =>
    match t with
    | Table.zf df => Table.iq (flag_iqr_anomalies df bounds cols)
    | t => t
  (σ₁, next + 1, next)

/-- `combined_anomaly_score` on the heap. -/
def combined_anomaly_score_st (σ : Store) (next a : Nat) :
    Store × Nat × Nat :=
  let σc := σ.write next (σ a)
  let σ₁ := σc.mutate next fun t =>
    match t with
    | Table.iq df => Table.comb (combined_anomaly_score df)
    | t => t
  (σ₁, next + 1, next)

/-! ### Concrete tables used by witnesses and counterexamples -/

/-- A row whose five sensor cells all hold the same value. -/
def constRow (m t : Nat) (v : ℚ) : Row :=
  { machine_id := m, timestamp := t, label := false, sensors := fun _ => some v }

/-- A row with every sensor cell missing. -/
def nullRow : Row :=
  { machine_id := 0, timestamp := 0, label := false, sensors := fun _ => none }

/-- A row with a chosen temperature and all other sensors at `1`. -/
def tempRow (m t : Nat) (x : ℚ) : Row :=
  { machine_id := m, timestamp := t, label := false,
    sensors := fun s =>
      match s with
      | Sensor.temperature_c => some x
      | _ => some 1 }

/-- One machine, temperatures `[1, 2, 3, 4, 100]`: the concrete IQR scenario
of the specification. -/
def iqrTable : List Row :=
  [tempRow 0 0 1, tempRow 0 1 2, tempRow 0 2 3, tempRow 0 3 4, tempRow 0 4 100]

/-- The IQR scenario rows wrapped as z-flagged rows (flags all false), as
they reach `flag_iqr_anomalies` inside `run_anomaly_detection`. -/
def iqrZF : List ZFRow :=
  iqrTable.map fun r =>
    { zrow := { row := r, zscore_sq := fun _ => 0 }, anomaly_zscore := false }

/-- One machine, three readings, every sensor constant: a flat signal. -/
def flatTable : List Row :=
  [constRow 0 0 60, constRow 0 1 60, constRow 0 2 60]

/-- A one-file filesystem for the loader examples. -/
def exFile : RawFile :=
  { columns := requiredColumns, table := flatTable }

/-- The example filesystem: `"data.csv"` maps to `exFile`. -/
def exFS : String → Option RawFile :=
  fun p => if p = "data.csv" then some exFile else none

/-- A heap with one allocated table, used by the frame-property witness. -/
def exStore : Store :=
  fun n => if n = 0 then some (Table.raw flatTable) else none

/-! ### Lemmas: cell updates -/

theorem setS_machine_id (r : Row) (s : Sensor) (v : Option ℚ) :
    (setS r s v).machine_id = r.machine_id := rfl

theorem setS_dkey (r : Row) (s : Sensor) (v : Option ℚ) :
    dkey (setS r s v) = dkey r := rfl

theorem setS_skey (r : Row) (s : Sensor) (v : Option ℚ) :
    skey (setS r s v) = skey r := rfl

theorem setS_sensors (r : Row) (s t : Sensor) (v : Option ℚ) :
    (setS r s v).sensors t = if t = s then v else r.sensors t := rfl

theorem setS_sensors_self (r : Row) (s : Sensor) (v : Option ℚ) :
    (setS r s v).sensors s = v := by
  simp [setS]

theorem setS_sensors_ne (r : Row) {s t : Sensor} (v : Option ℚ) (h : t ≠ s) :
    (setS r s v).sensors t = r.sensors t := by
  simp [setS, h]

theorem setS_self (r : Row) (s : Sensor) : setS r s (r.sensors s) = r := by
  cases r with
  | mk m t lb f =>
      simp only [setS, Row.mk.injEq, true_and]
      funext u
      by_cases hu : u = s <;> simp [hu]

/-! ### Lemmas: deduplication -/

theorem dedupFirst_sublist (l : List Row) : List.Sublist (dedupFirst l) l := by
  induction l using dedupFirst.induct with
  | case1 => simp [dedupFirst]
  | case2 x xs ih =>
      rw [dedupFirst]
      exact (ih.trans (List.filter_sublist xs)).cons₂ x

theorem mem_of_mem_dedupFirst {r : Row} {l : List Row}
    (h : r ∈ dedupFirst l) : r ∈ l :=
  (dedupFirst_sublist l).subset h

theorem nodup_dedupFirst_keys (l : List Row) :
    ((dedupFirst l).map dkey).Nodup := by
  induction l using dedupFirst.induct with
  | case1 => simp [dedupFirst]
  | case2 x xs ih =>
      rw [dedupFirst]
      simp only [List.map_cons, List.nodup_cons]
      refine ⟨?_, ih⟩
      intro hmem
      rcases List.mem_map.1 hmem with ⟨y, hy, hyk⟩
      have hyf := mem_of_mem_dedupFirst hy
      have := (List.mem_filter.1 hyf).2
      simp only [Bool.not_eq_eq_eq_not, Bool.not_true, decide_eq_false_iff_not] at this
      exact this hyk

theorem mem_keys_dedupFirst (l : List Row) (k : Nat × Nat) :
    k ∈ (dedupFirst l).map dkey ↔ k ∈ l.map dkey := by
  induction l using dedupFirst.induct with
  | case1 => simp [dedupFirst]
  | case2 x xs ih =>
      rw [dedupFirst]
      simp only [List.map_cons, List.mem_cons]
      constructor
      · rintro (h | h)
        · exact Or.inl h
        · rcases List.mem_map.1 (ih.1 h) with ⟨y, hy, hyk⟩
          exact Or.inr (List.mem_map.2 ⟨y, (List.mem_filter.1 hy).1, hyk⟩)
      · rintro (h | h)
        · exact Or.inl h
        · by_cases hk : k = dkey x
          · exact Or.inl hk
          · refine Or.inr (ih.2 ?_)
            rcases List.mem_map.1 h with ⟨y, hy, hyk⟩
            refine List.mem_map.2 ⟨y, List.mem_filter.2 ⟨hy, ?_⟩, hyk⟩
            simp only [Bool.not_eq_eq_eq_not, Bool.not_true, decide_eq_false_iff_not]
            intro hc
            exact hk (hyk ▸ hc)

theorem find?_filter_of_imp (l : List α) (p q : α → Bool)
    (h : ∀ y, p y = true → q y = true) :
    (l.filter q).find? p = l.find? p := by
  induction l with
  | nil => rfl
  | cons a l ih =>
      by_cases hq : q a = true
      · rw [List.filter_cons_of_pos hq]
        by_cases hp : p a = true
        · rw [List.find?_cons_of_pos _ hp, List.find?_cons_of_pos _ hp]
        · rw [List.find?_cons_of_neg _ (by simpa using hp),
            List.find?_cons_of_neg _ (by simpa using hp), ih]
      · rw [List.filter_cons_of_neg (by simpa using hq)]
        have hp : ¬ p a = true := fun hc => hq (h a hc)
        rw [List.find?_cons_of_neg _ (by simpa using hp), ih]

theorem dedupFirst_find? {l : List Row} {r : Row} (h : r ∈ dedupFirst l) :
    l.find? (fun y => decide (dkey y = dkey r)) = some r := by
  induction l using dedupFirst.induct with
  | case1 => simp [dedupFirst] at h
  | case2 x xs ih =>
      rw [dedupFirst] at h
      rcases List.mem_cons.1 h with rfl | h
      · exact List.find?_cons_of_pos _ (by simp)
      · have hne : dkey r ≠ dkey x := by
          have hyf := mem_of_mem_dedupFirst h
          have := (List.mem_filter.1 hyf).2
          simpa using this
        rw [List.find?_cons_of_neg _ (by simpa using fun hc => hne hc.symm)]
        rw [← ih h]
        rw [find?_filter_of_imp]
        intro y hy
        simp only [decide_eq_true_eq] at hy ⊢
        simp only [Bool.not_eq_eq_eq_not, Bool.not_true, decide_eq_false_iff_not]
        intro hc
        exact hne (hy ▸ hc)

theorem dedupFirst_of_nodup_keys {l : List Row}
    (h : (l.map dkey).Nodup) : dedupFirst l = l := by
  induction l using dedupFirst.induct with
  | case1 => simp [dedupFirst]
  | case2 x xs ih =>
      simp only [List.map_cons, List.nodup_cons] at h
      have hf : xs.filter (fun y => !decide (dkey y = dkey x)) = xs := by
        refine List.filter_eq_self.2 fun y hy => ?_
        simp only [Bool.not_eq_eq_eq_not, Bool.not_true, decide_eq_false_iff_not]
        intro hc
        exact h.1 (List.mem_map.2 ⟨y, hy, hc⟩)
      rw [dedupFirst, hf]
      rw [hf] at ih
      rw [ih h.2]

/-! ### Lemmas: sorting and stability -/

theorem sle_of_dkey_eq {a b : Row} (h : dkey a = dkey b) : sle a b := by
  have hk := dkey_eq_iff_skey_eq.1 h
  have h1 : (skey a).1 = (skey b).1 := by rw [hk]
  have h2 : (skey a).2 = (skey b).2 := by rw [hk]
  unfold sle keyLE
  omega

theorem filter_key_insertionSort (l : List Row) (k : Nat × Nat) :
    (List.insertionSort sle l).filter (fun y => decide (dkey y = k)) =
      l.filter (fun y => decide (dkey y = k)) := by
  set p : Row → Bool := fun y => decide (dkey y = k) with hp
  have hpair : (l.filter p).Pairwise sle := by
    refine List.pairwise_of_forall_mem_list fun a ha b hb => ?_
    have hak : dkey a = k := by simpa [hp] using (List.mem_filter.1 ha).2
    have hbk : dkey b = k := by simpa [hp] using (List.mem_filter.1 hb).2
    exact sle_of_dkey_eq (hak.trans hbk.symm)
  have hsub : List.Sublist (l.filter p) (List.insertionSort sle l) :=
    List.sublist_insertionSort hpair (List.filter_sublist l)
  have hsub2 : List.Sublist (l.filter p) ((List.insertionSort sle l).filter p) := by
    have := hsub.filter p
    rwa [List.filter_eq_self.2 (fun a ha => (List.mem_filter.1 ha).2)] at this
  have hlen : ((List.insertionSort sle l).filter p).length = (l.filter p).length :=
    ((List.perm_insertionSort sle l).filter p).length_eq
  exact (hsub2.eq_of_length hlen.symm).symm

theorem find?_eq_head?_filter (l : List α) (p : α → Bool) :
    l.find? p = (l.filter p).head? := by
  induction l with
  | nil => rfl
  | cons a l ih =>
      by_cases hp : p a = true
      · rw [List.find?_cons_of_pos _ hp, List.filter_cons_of_pos hp, List.head?_cons]
      · rw [List.find?_cons_of_neg _ (by simpa using hp),
          List.filter_cons_of_neg (by simpa using hp), ih]

theorem insertionSort_find?_of_mem_dedupFirst {l : List Row} {r : Row}
    (h : r ∈ dedupFirst l) :
    (List.insertionSort sle l).find? (fun y => decide (dkey y = dkey r)) = some r := by
  rw [find?_eq_head?_filter, filter_key_insertionSort, ← find?_eq_head?_filter]
  exact dedupFirst_find? h

/-! ### Lemmas: the filling operations preserve shape and keys -/

theorem dkey_eq_swap_skey (r : Row) : dkey r = Prod.swap (skey r) := rfl

theorem ffillAux_length (s : Sensor) (last : Nat → Option ℚ) (rows : List Row) :
    (ffillAux s last rows).length = rows.length := by
  induction rows generalizing last with
  | nil => rfl
  | cons r rs ih => simp [ffillAux, ih]

theorem ffillAux_map_skey (s : Sensor) (last : Nat → Option ℚ) (rows : List Row) :
    (ffillAux s last rows).map skey = rows.map skey := by
  induction rows generalizing last with
  | nil => rfl
  | cons r rs ih => simp [ffillAux, ih, setS_skey]

theorem ffillAux_col_ne (s : Sensor) (last : Nat → Option ℚ) (rows : List Row)
    {t : Sensor} (ht : t ≠ s) :
    (ffillAux s last rows).map (fun r => r.sensors t) =
      rows.map (fun r => r.sensors t) := by
  induction rows generalizing last with
  | nil => rfl
  | cons r rs ih => simp [ffillAux, ih, setS_sensors_ne _ _ ht]

theorem ffillAux_some_preserved (s : Sensor) (last : Nat → Option ℚ)
    (rows : List Row) (t : Sensor)
    (h : ∀ r ∈ rows, (r.sensors t).isSome = true) :
    ∀ r ∈ ffillAux s last rows, (r.sensors t).isSome = true := by
  induction rows generalizing last with
  | nil => intro r hr; simp [ffillAux] at hr
  | cons r rs ih =>
      intro r₂ hr₂
      rw [ffillAux] at hr₂
      rcases List.mem_cons.1 hr₂ with rfl | hr₂
      · by_cases hts : t = s
        · subst hts
          have := h r (List.mem_cons_self r rs)
          rcases ho : r.sensors t with _ | x
          · rw [ho] at this; simp at this
          · simp [ho, setS_sensors_self]
        · rw [setS_sensors_ne _ _ hts]
          exact h r (List.mem_cons_self r rs)
      · exact ih _ (fun y hy => h y (List.mem_cons_of_mem r hy)) r₂ hr₂

theorem ffillAux_id_of_some (s : Sensor) (last : Nat → Option ℚ)
    (rows : List Row) (h : ∀ r ∈ rows, (r.sensors s).isSome = true) :
    ffillAux s last rows = rows := by
  induction rows generalizing last with
  | nil => rfl
  | cons r rs ih =>
      rcases ho : r.sensors s with _ | x
      · have := h r (List.mem_cons_self r rs); rw [ho] at this; simp at this
      · rw [ffillAux]
        simp only [ho]
        rw [← ho, setS_self, ih _ (fun y hy => h y (List.mem_cons_of_mem r hy))]

theorem ffillAux_id_of_none (s : Sensor) (last : Nat → Option ℚ)
    (rows : List Row) (h : ∀ r ∈ rows, r.sensors s = none)
    (hl : ∀ m, last m = none) :
    ffillAux s last rows = rows := by
  induction rows generalizing last with
  | nil => rfl
  | cons r rs ih =>
      rw [ffillAux]
      have ho := h r (List.mem_cons_self r rs)
      simp only [ho, hl]
      rw [← ho, setS_self]
      congr 1
      exact ih _ (fun y hy => h y (List.mem_cons_of_mem r hy))
        (fun m => by by_cases hm : m = r.machine_id <;> simp [hm, hl, ho])

theorem bfillCol_length (s : Sensor) (rows : List Row) :
    (bfillCol s rows).length = rows.length := by
  simp [bfillCol, ffillAux_length]

theorem map_id_of (l : List α) (f : α → α) (h : ∀ a ∈ l, f a = a) :
    l.map f = l := by
  induction l with
  | nil => rfl
  | cons a l ih =>
      rw [List.map_cons, h a (List.mem_cons_self a l),
        ih fun b hb => h b (List.mem_cons_of_mem a hb)]

theorem bfillCol_map_skey (s : Sensor) (rows : List Row) :
    (bfillCol s rows).map skey = rows.map skey := by
  have h := ffillAux_map_skey s (fun _ => none) rows.reverse
  rw [bfillCol, List.map_reverse, h, List.map_reverse, List.reverse_reverse]

theorem bfillCol_col_ne (s : Sensor) (rows : List Row) {t : Sensor} (ht : t ≠ s) :
    (bfillCol s rows).map (fun r => r.sensors t) =
      rows.map (fun r => r.sensors t) := by
  have h := ffillAux_col_ne s (fun _ => none) rows.reverse ht
  rw [bfillCol, List.map_reverse, h, List.map_reverse, List.reverse_reverse]

theorem bfillCol_some_preserved (s : Sensor) (rows : List Row) (t : Sensor)
    (h : ∀ r ∈ rows, (r.sensors t).isSome = true) :
    ∀ r ∈ bfillCol s rows, (r.sensors t).isSome = true := by
  intro r hr
  rw [bfillCol, List.mem_reverse] at hr
  exact ffillAux_some_preserved s _ rows.reverse t
    (fun y hy => h y (List.mem_reverse.1 hy)) r hr

theorem bfillCol_id_of_some (s : Sensor) (rows : List Row)
    (h : ∀ r ∈ rows, (r.sensors s).isSome = true) :
    bfillCol s rows = rows := by
  rw [bfillCol, ffillAux_id_of_some s _ _ (fun y hy => h y (List.mem_reverse.1 hy)),
    List.reverse_reverse]

theorem bfillCol_id_of_none (s : Sensor) (rows : List Row)
    (h : ∀ r ∈ rows, r.sensors s = none) :
    bfillCol s rows = rows := by
  rw [bfillCol, ffillAux_id_of_none s _ _ (fun y hy => h y (List.mem_reverse.1 hy))
    (fun _ => rfl), List.reverse_reverse]

theorem fillnaCol_length (s : Sensor) (m : Option ℚ) (rows : List Row) :
    (fillnaCol s m rows).length = rows.length := by
  simp [fillnaCol]

theorem fillnaCol_map_skey (s : Sensor) (m : Option ℚ) (rows : List Row) :
    (fillnaCol s m rows).map skey = rows.map skey := by
  simp only [fillnaCol, List.map_map]
  refine List.map_congr_left fun r _ => ?_
  rcases ho : r.sensors s with _ | x <;> rcases m with _ | y <;>
    simp [Function.comp, ho, setS_skey]

theorem fillnaCol_col_ne (s : Sensor) (m : Option ℚ) (rows : List Row)
    {t : Sensor} (ht : t ≠ s) :
    (fillnaCol s m rows).map (fun r => r.sensors t) =
      rows.map (fun r => r.sensors t) := by
  simp only [fillnaCol, List.map_map]
  refine List.map_congr_left fun r _ => ?_
  rcases ho : r.sensors s with _ | x <;> rcases m with _ | y <;>
    simp [Function.comp, ho, setS_sensors_ne _ _ ht]

theorem fillnaCol_none (s : Sensor) (rows : List Row) :
    fillnaCol s none rows = rows := by
  rw [fillnaCol]
  refine map_id_of _ _ fun r _ => ?_
  rcases ho : r.sensors s with _ | x <;> simp [ho]

theorem fillnaCol_id_of_some (s : Sensor) (m : Option ℚ) (rows : List Row)
    (h : ∀ r ∈ rows, (r.sensors s).isSome = true) :
    fillnaCol s m rows = rows := by
  rw [fillnaCol]
  refine map_id_of _ _ fun r hr => ?_
  have := h r hr
  rcases ho : r.sensors s with _ | x
  · rw [ho] at this; simp at this
  · rcases m with _ | y <;> simp [ho]

theorem fillnaCol_some_of_fill (s : Sensor) (x : ℚ) (rows : List Row) :
    ∀ r ∈ fillnaCol s (some x) rows, (r.sensors s).isSome = true := by
  intro r hr
  rw [fillnaCol] at hr
  rcases List.mem_map.1 hr with ⟨y, _, rfl⟩
  rcases ho : y.sensors s with _ | z <;> simp [ho, setS_sensors_self]

theorem fillnaCol_some_preserved (s : Sensor) (m : Option ℚ) (rows : List Row)
    (t : Sensor) (h : ∀ r ∈ rows, (r.sensors t).isSome = true) :
    ∀ r ∈ fillnaCol s m rows, (r.sensors t).isSome = true := by
  intro r hr
  rw [fillnaCol] at hr
  rcases List.mem_map.1 hr with ⟨y, hy, rfl⟩
  have hyt := h y hy
  rcases ho : y.sensors s with _ | z <;> rcases m with _ | w <;>
    simp only [ho] <;> try exact hyt
  by_cases hts : t = s
  · subst hts; simp [setS_sensors_self]
  · rw [setS_sensors_ne _ _ hts]; exact hyt

/-! ### Lemmas: clipping preserves shape and keys -/

theorem clipCol_length (s : Sensor) (rows : List Row) :
    (clipCol s rows).length = rows.length := by
  simp [clipCol]

theorem clipCol_map_skey (s : Sensor) (rows : List Row) :
    (clipCol s rows).map skey = rows.map skey := by
  simp only [clipCol, List.map_map]
  refine List.map_congr_left fun r _ => ?_
  rcases ho : r.sensors s with _ | x <;> simp [Function.comp, ho, setS_skey]

theorem clipCol_col_ne (s : Sensor) (rows : List Row) {t : Sensor} (ht : t ≠ s) :
    (clipCol s rows).map (fun r => r.sensors t) =
      rows.map (fun r => r.sensors t) := by
  simp only [clipCol, List.map_map]
  refine List.map_congr_left fun r _ => ?_
  rcases ho : r.sensors s with _ | x <;> simp [Function.comp, ho, setS_sensors_ne _ _ ht]

theorem clipCol_some_preserved (s : Sensor) (rows : List Row) (t : Sensor)
    (h : ∀ r ∈ rows, (r.sensors t).isSome = true) :
    ∀ r ∈ clipCol s rows, (r.sensors t).isSome = true := by
  intro r hr
  rw [clipCol] at hr
  rcases List.mem_map.1 hr with ⟨y, hy, rfl⟩
  have hyt := h y hy
  rcases ho : y.sensors s with _ | x
  · simpa [ho] using hyt
  · simp only [ho]
    by_cases hts : t = s
    · subst hts; simp [setS_sensors_self]
    · rw [setS_sensors_ne _ _ hts]; exact hyt

theorem clipCol_none_preserved (s : Sensor) (rows : List Row) (t : Sensor)
    (h : ∀ r ∈ rows, r.sensors t = none) :
    ∀ r ∈ clipCol s rows, r.sensors t = none := by
  intro r hr
  rw [clipCol] at hr
  rcases List.mem_map.1 hr with ⟨y, hy, rfl⟩
  have hyt := h y hy
  rcases ho : y.sensors s with _ | x
  · simpa [ho] using hyt
  · simp only [ho]
    by_cases hts : t = s
    · subst hts; rw [ho] at hyt; exact absurd hyt (by simp)
    · rw [setS_sensors_ne _ _ hts]; exact hyt

theorem clipCol_id_of_in_range (s : Sensor) (rows : List Row)
    (h : ∀ r ∈ rows, ∀ x, r.sensors s = some x →
      (VALUE_RANGES s).1 ≤ x ∧ x ≤ (VALUE_RANGES s).2) :
    clipCol s rows = rows := by
  rw [clipCol]
  refine map_id_of _ _ fun r hr => ?_
  rcases ho : r.sensors s with _ | x
  · rfl
  · have hx := h r hr x ho
    have hmm : min (max x (VALUE_RANGES s).1) (VALUE_RANGES s).2 = x := by
      rw [max_eq_left hx.1, min_eq_left hx.2]
    show setS r s (some (min (max x (VALUE_RANGES s).1) (VALUE_RANGES s).2)) = r
    rw [hmm, ← ho, setS_self]

/-! ### Lemmas: the per-column fill step and the fold over columns -/

/-- The per-column body of the fold inside `fillMissing`. -/
def fillStep (rows : List Row) (acc : List Row) (s : Sensor) : List Row :=
  fillnaCol s (colMean rows s) (bfillCol s (ffillCol s acc))

theorem fillMissing_eq_foldl (rows : List Row) :
    fillMissing rows = numericCols.foldl (fillStep rows) rows := rfl

theorem fillStep_length (rows acc : List Row) (s : Sensor) :
    (fillStep rows acc s).length = acc.length := by
  rw [fillStep, fillnaCol_length, bfillCol_length, ffillCol, ffillAux_length]

theorem fillStep_map_skey (rows acc : List Row) (s : Sensor) :
    (fillStep rows acc s).map skey = acc.map skey := by
  rw [fillStep, fillnaCol_map_skey, bfillCol_map_skey, ffillCol, ffillAux_map_skey]

theorem fillStep_col_ne (rows acc : List Row) (s : Sensor) {t : Sensor}
    (ht : t ≠ s) :
    (fillStep rows acc s).map (fun r => r.sensors t) =
      acc.map (fun r => r.sensors t) := by
  rw [fillStep, fillnaCol_col_ne _ _ _ ht, bfillCol_col_ne _ _ ht, ffillCol,
    ffillAux_col_ne _ _ _ ht]

theorem fillStep_some_preserved (rows acc : List Row) (s t : Sensor)
    (h : ∀ r ∈ acc, (r.sensors t).isSome = true) :
    ∀ r ∈ fillStep rows acc s, (r.sensors t).isSome = true := by
  rw [fillStep]
  exact fillnaCol_some_preserved _ _ _ _
    (bfillCol_some_preserved _ _ _
      (ffillAux_some_preserved _ _ _ _ h))

theorem fillStep_some_of_mean (rows acc : List Row) (s : Sensor) (x : ℚ)
    (hmean : colMean rows s = some x) :
    ∀ r ∈ fillStep rows acc s, (r.sensors s).isSome = true := by
  rw [fillStep, hmean]
  exact fillnaCol_some_of_fill s x _

theorem fillStep_id_of_some (rows acc : List Row) (s : Sensor)
    (h : ∀ r ∈ acc, (r.sensors s).isSome = true) :
    fillStep rows acc s = acc := by
  rw [fillStep, ffillCol, ffillAux_id_of_some _ _ _ h, bfillCol_id_of_some _ _ h,
    fillnaCol_id_of_some _ _ _ h]

theorem fillStep_id_of_none (rows acc : List Row) (s : Sensor)
    (hmean : colMean rows s = none) (h : ∀ r ∈ acc, r.sensors s = none) :
    fillStep rows acc s = acc := by
  rw [fillStep, ffillCol, ffillAux_id_of_none _ _ _ h (fun _ => rfl),
    bfillCol_id_of_none _ _ h, hmean, fillnaCol_none]

theorem foldl_fill_length (rows : List Row) (cols : List Sensor)
    (acc : List Row) :
    (cols.foldl (fillStep rows) acc).length = acc.length := by
  induction cols generalizing acc with
  | nil => rfl
  | cons c cs ih => rw [List.foldl_cons, ih, fillStep_length]

theorem foldl_fill_map_skey (rows : List Row) (cols : List Sensor)
    (acc : List Row) :
    (cols.foldl (fillStep rows) acc).map skey = acc.map skey := by
  induction cols generalizing acc with
  | nil => rfl
  | cons c cs ih => rw [List.foldl_cons, ih, fillStep_map_skey]

theorem foldl_fill_some_preserved (rows : List Row) (cols : List Sensor)
    (acc : List Row) (t : Sensor)
    (h : ∀ r ∈ acc, (r.sensors t).isSome = true) :
    ∀ r ∈ cols.foldl (fillStep rows) acc, (r.sensors t).isSome = true := by
  induction cols generalizing acc with
  | nil => exact h
  | cons c cs ih =>
      rw [List.foldl_cons]
      exact ih _ (fillStep_some_preserved rows acc c t h)

theorem foldl_fill_some (rows : List Row) (cols : List Sensor)
    (acc : List Row) (s : Sensor) (x : ℚ) (hs : s ∈ cols)
    (hmean : colMean rows s = some x) :
    ∀ r ∈ cols.foldl (fillStep rows) acc, (r.sensors s).isSome = true := by
  induction cols generalizing acc with
  | nil => simp at hs
  | cons c cs ih =>
      rw [List.foldl_cons]
      by_cases hc : s = c
      · subst hc
        exact foldl_fill_some_preserved rows cs _ s
          (fillStep_some_of_mean rows acc s x hmean)
      · have hs2 : s ∈ cs := by
          rcases List.mem_cons.1 hs with h | h
          · exact absurd h hc
          · exact h
        exact ih _ hs2

theorem foldl_fill_none (rows : List Row) (cols : List Sensor)
    (acc : List Row) (s : Sensor) (hmean : colMean rows s = none)
    (hcol : ∀ r ∈ acc, r.sensors s = none) :
    ∀ r ∈ cols.foldl (fillStep rows) acc, r.sensors s = none := by
  induction cols generalizing acc with
  | nil => exact hcol
  | cons c cs ih =>
      rw [List.foldl_cons]
      by_cases hc : s = c
      · subst hc
        rw [fillStep_id_of_none rows acc s hmean hcol]
        exact ih _ hcol
      · refine ih _ fun r hr => ?_
        have hmap := fillStep_col_ne rows acc c (t := s) hc
        have : r.sensors s ∈ (fillStep rows acc c).map (fun r => r.sensors s) :=
          List.mem_map.2 ⟨r, hr, rfl⟩
        rw [hmap] at this
        rcases List.mem_map.1 this with ⟨y, hy, hval⟩
        rw [← hval, hcol y hy]

theorem foldl_fill_id (rows : List Row) (cols : List Sensor) (acc : List Row)
    (h : ∀ s ∈ cols, (∀ r ∈ acc, (r.sensors s).isSome = true) ∨
      ((∀ r ∈ acc, r.sensors s = none) ∧ colMean rows s = none)) :
    cols.foldl (fillStep rows) acc = acc := by
  induction cols with
  | nil => rfl
  | cons c cs ih =>
      rw [List.foldl_cons]
      have hstep : fillStep rows acc c = acc := by
        rcases h c (List.mem_cons_self c cs) with hc | ⟨hc, hm⟩
        · exact fillStep_id_of_some rows acc c hc
        · exact fillStep_id_of_none rows acc c hm hc
      rw [hstep]
      exact ih fun s hs => h s (List.mem_cons_of_mem c hs)

/-! ### Lemmas: the fold over columns for clipping -/

theorem VALUE_RANGES_le (s : Sensor) :
    (VALUE_RANGES s).1 ≤ (VALUE_RANGES s).2 := by
  cases s <;> norm_num [VALUE_RANGES]

theorem clipCol_range (s : Sensor) (rows : List Row) :
    ∀ r ∈ clipCol s rows, ∀ x, r.sensors s = some x →
      (VALUE_RANGES s).1 ≤ x ∧ x ≤ (VALUE_RANGES s).2 := by
  intro r hr x hx
  rw [clipCol] at hr
  rcases List.mem_map.1 hr with ⟨y, _, rfl⟩
  rcases ho : y.sensors s with _ | z
  · have hred : (match y.sensors s with
        | none => y
        | some z => setS y s (some (min (max z (VALUE_RANGES s).1) (VALUE_RANGES s).2)))
        = y := by rw [ho]
    rw [hred, ho] at hx
    exact absurd hx (by simp)
  · have hred : (match y.sensors s with
        | none => y
        | some z => setS y s (some (min (max z (VALUE_RANGES s).1) (VALUE_RANGES s).2)))
        = setS y s (some (min (max z (VALUE_RANGES s).1) (VALUE_RANGES s).2)) := by
      rw [ho]
    rw [hred, setS_sensors_self] at hx
    have hx2 : min (max z (VALUE_RANGES s).1) (VALUE_RANGES s).2 = x :=
      Option.some.inj hx
    constructor
    · rw [← hx2]
      exact le_min (le_max_right _ _) (VALUE_RANGES_le s)
    · rw [← hx2]
      exact min_le_right _ _

theorem clipCol_range_preserved (s c : Sensor) (rows : List Row)
    (h : ∀ r ∈ rows, ∀ x, r.sensors s = some x →
      (VALUE_RANGES s).1 ≤ x ∧ x ≤ (VALUE_RANGES s).2) :
    ∀ r ∈ clipCol c rows, ∀ x, r.sensors s = some x →
      (VALUE_RANGES s).1 ≤ x ∧ x ≤ (VALUE_RANGES s).2 := by
  by_cases hc : s = c
  · subst hc; exact clipCol_range s rows
  · intro r hr x hx
    have hmap := clipCol_col_ne c rows (t := s) hc
    have : r.sensors s ∈ (clipCol c rows).map (fun r => r.sensors s) :=
      List.mem_map.2 ⟨r, hr, rfl⟩
    rw [hmap] at this
    rcases List.mem_map.1 this with ⟨y, hy, hval⟩
    exact h y hy x (hval.trans hx)

theorem foldl_clip_length (cols : List Sensor) (acc : List Row) :
    (cols.foldl (fun acc s => clipCol s acc) acc).length = acc.length := by
  induction cols generalizing acc with
  | nil => rfl
  | cons c cs ih => rw [List.foldl_cons, ih, clipCol_length]

theorem foldl_clip_map_skey (cols : List Sensor) (acc : List Row) :
    (cols.foldl (fun acc s => clipCol s acc) acc).map skey = acc.map skey := by
  induction cols generalizing acc with
  | nil => rfl
  | cons c cs ih => rw [List.foldl_cons, ih, clipCol_map_skey]

theorem foldl_clip_some_preserved (cols : List Sensor) (acc : List Row)
    (t : Sensor) (h : ∀ r ∈ acc, (r.sensors t).isSome = true) :
    ∀ r ∈ cols.foldl (fun acc s => clipCol s acc) acc,
      (r.sensors t).isSome = true := by
  induction cols generalizing acc with
  | nil => exact h
  | cons c cs ih =>
      rw [List.foldl_cons]
      exact ih _ (clipCol_some_preserved c acc t h)

theorem foldl_clip_none_preserved (cols : List Sensor) (acc : List Row)
    (t : Sensor) (h : ∀ r ∈ acc, r.sensors t = none) :
    ∀ r ∈ cols.foldl (fun acc s => clipCol s acc) acc, r.sensors t = none := by
  induction cols generalizing acc with
  | nil => exact h
  | cons c cs ih =>
      rw [List.foldl_cons]
      exact ih _ (clipCol_none_preserved c acc t h)

theorem foldl_clip_range_preserved (cols : List Sensor) (acc : List Row)
    (s : Sensor)
    (h : ∀ r ∈ acc, ∀ x, r.sensors s = some x →
      (VALUE_RANGES s).1 ≤ x ∧ x ≤ (VALUE_RANGES s).2) :
    ∀ r ∈ cols.foldl (fun acc s => clipCol s acc) acc, ∀ x,
      r.sensors s = some x →
      (VALUE_RANGES s).1 ≤ x ∧ x ≤ (VALUE_RANGES s).2 := by
  induction cols generalizing acc with
  | nil => exact h
  | cons c cs ih =>
      rw [List.foldl_cons]
      exact ih _ (clipCol_range_preserved s c acc h)

theorem foldl_clip_range (cols : List Sensor) (acc : List Row) (s : Sensor)
    (hs : s ∈ cols) :
    ∀ r ∈ cols.foldl (fun acc s => clipCol s acc) acc, ∀ x,
      r.sensors s = some x →
      (VALUE_RANGES s).1 ≤ x ∧ x ≤ (VALUE_RANGES s).2 := by
  induction cols generalizing acc with
  | nil => simp at hs
  | cons c cs ih =>
      rw [List.foldl_cons]
      by_cases hc : s = c
      · subst hc
        exact foldl_clip_range_preserved cs _ s (clipCol_range s acc)
      · have hs2 : s ∈ cs := by
          rcases List.mem_cons.1 hs with h | h
          · exact absurd h hc
          · exact h
        exact ih _ hs2

theorem foldl_clip_id (cols : List Sensor) (acc : List Row)
    (h : ∀ s ∈ cols, ∀ r ∈ acc, ∀ x, r.sensors s = some x →
      (VALUE_RANGES s).1 ≤ x ∧ x ≤ (VALUE_RANGES s).2) :
    cols.foldl (fun acc s => clipCol s acc) acc = acc := by
  induction cols with
  | nil => rfl
  | cons c cs ih =>
      rw [List.foldl_cons, clipCol_id_of_in_range c acc (h c (List.mem_cons_self c cs))]
      exact ih fun s hs => h s (List.mem_cons_of_mem c hs)

/-! ### Lemmas: invariants of `clean_data` -/

theorem colMean_perm {l₁ l₂ : List Row} (h : l₁.Perm l₂) (s : Sensor) :
    colMean l₁ s = colMean l₂ s := by
  have hfm : (l₁.filterMap fun r => r.sensors s).Perm
      (l₂.filterMap fun r => r.sensors s) := h.filterMap _
  unfold colMean
  rw [hfm.sum_eq, hfm.length_eq]
  by_cases h₁ : (l₁.filterMap fun r => r.sensors s) = []
  · rw [if_pos h₁, if_pos (h₁ ▸ hfm).symm.eq_nil]
  · rw [if_neg h₁, if_neg fun h₂ => h₁ (h₂ ▸ hfm).eq_nil]

theorem colMean_none_iff (rows : List Row) (s : Sensor) :
    colMean rows s = none ↔ ∀ r ∈ rows, r.sensors s = none := by
  unfold colMean
  by_cases he : (rows.filterMap fun r => r.sensors s) = []
  · rw [if_pos he]
    constructor
    · intro _ r hr
      exact List.filterMap_eq_nil_iff.1 he r hr
    · intro _
      rfl
  · rw [if_neg he]
    constructor
    · intro h
      exact absurd h (by simp)
    · intro hall
      exact absurd (List.filterMap_eq_nil_iff.2 hall) he

theorem map_dkey_eq_swap (l : List Row) :
    l.map dkey = (l.map skey).map Prod.swap := by
  rw [List.map_map]
  exact List.map_congr_left fun r _ => rfl

theorem clean_data_length (df : List Row) :
    (clean_data df).length = (dedupFirst df).length := by
  rw [clean_data, clipAll, foldl_clip_length, fillMissing_eq_foldl,
    foldl_fill_length, cleanDedupSort, List.length_insertionSort]

theorem clean_data_map_skey (df : List Row) :
    (clean_data df).map skey = (cleanDedupSort df).map skey := by
  rw [clean_data, clipAll, foldl_clip_map_skey, fillMissing_eq_foldl,
    foldl_fill_map_skey]

theorem clean_data_map_dkey (df : List Row) :
    (clean_data df).map dkey = (cleanDedupSort df).map dkey := by
  rw [map_dkey_eq_swap, map_dkey_eq_swap, clean_data_map_skey]

theorem clean_data_keys_nodup (df : List Row) :
    ((clean_data df).map dkey).Nodup := by
  rw [clean_data_map_dkey]
  have hperm : (cleanDedupSort df).Perm (dedupFirst df) :=
    List.perm_insertionSort sle (dedupFirst df)
  exact ((hperm.map dkey).nodup_iff).2 (nodup_dedupFirst_keys df)

theorem clean_data_sorted (df : List Row) :
    List.Sorted sle (clean_data df) := by
  have hsorted : List.Sorted sle (cleanDedupSort df) :=
    List.sorted_insertionSort sle (dedupFirst df)
  have h1 : ((cleanDedupSort df).map skey).Pairwise keyLE :=
    List.pairwise_map.2 hsorted
  rw [← clean_data_map_skey] at h1
  have h2 : (clean_data df).Pairwise fun a b => keyLE (skey a) (skey b) :=
    List.pairwise_map.1 h1
  exact h2

theorem clean_data_col_none (df : List Row) (s : Sensor)
    (hm : colMean (cleanDedupSort df) s = none) :
    ∀ r ∈ clean_data df, r.sensors s = none := by
  have hcol := (colMean_none_iff _ s).1 hm
  have h1 := foldl_fill_none (cleanDedupSort df) numericCols
    (cleanDedupSort df) s hm hcol
  rw [← fillMissing_eq_foldl] at h1
  intro r hr
  rw [clean_data, clipAll] at hr
  exact foldl_clip_none_preserved numericCols _ s h1 r hr

theorem clean_data_col_some (df : List Row) (s : Sensor) (x : ℚ)
    (hm : colMean (cleanDedupSort df) s = some x) :
    ∀ r ∈ clean_data df, (r.sensors s).isSome = true := by
  have h1 := foldl_fill_some (cleanDedupSort df) numericCols
    (cleanDedupSort df) s x (mem_numericCols s) hm
  rw [← fillMissing_eq_foldl] at h1
  intro r hr
  rw [clean_data, clipAll] at hr
  exact foldl_clip_some_preserved numericCols _ s h1 r hr

theorem clean_data_all_or_none (df : List Row) (s : Sensor) :
    (∀ r ∈ clean_data df, (r.sensors s).isSome = true) ∨
      (∀ r ∈ clean_data df, r.sensors s = none) := by
  rcases hm : colMean (cleanDedupSort df) s with _ | x
  · exact Or.inr (clean_data_col_none df s hm)
  · exact Or.inl (clean_data_col_some df s x hm)

theorem clean_data_in_range (df : List Row) (s : Sensor) :
    ∀ r ∈ clean_data df, ∀ x, r.sensors s = some x →
      (VALUE_RANGES s).1 ≤ x ∧ x ≤ (VALUE_RANGES s).2 := by
  intro r hr
  rw [clean_data, clipAll] at hr
  exact foldl_clip_range numericCols _ s (mem_numericCols s) r hr

/-- C7: `clean_data` is idempotent — applying it to its own output yields
the same table: the second pass removes no rows, reorders nothing and
changes no values. -/
theorem clean_data_idem (df : List Row) :
    clean_data (clean_data df) = clean_data df := by
  set L := clean_data df with hL
  have hdedup : dedupFirst L = L := dedupFirst_of_nodup_keys (clean_data_keys_nodup df)
  have hsort : List.insertionSort sle L = L :=
    List.Sorted.insertionSort_eq (clean_data_sorted df)
  have hds : cleanDedupSort L = L := by rw [cleanDedupSort, hdedup, hsort]
  have hfill : fillMissing L = L := by
    rw [fillMissing_eq_foldl]
    refine foldl_fill_id L numericCols L fun s _ => ?_
    rcases clean_data_all_or_none df s with h | h
    · exact Or.inl (hL ▸ h)
    · refine Or.inr ⟨hL ▸ h, (colMean_none_iff _ _).2 (hL ▸ h)⟩
  have hclip : clipAll L = L := by
    rw [clipAll]
    exact foldl_clip_id numericCols L fun s _ => hL ▸ clean_data_in_range df s
  calc clean_data L = clipAll (fillMissing (cleanDedupSort L)) := rfl
    _ = L := by rw [hds, hfill, hclip]

/-! ### Claim theorems about `clean_data` -/

/-- C2: `clean_data` removes exactly the rows duplicating another row's
`(timestamp, machine_id)` pair — output keys are distinct yet cover every
input key — and the retained representative of each duplicate group is the
first occurrence of its key in the table sorted by
`(machine_id, timestamp)` (with the original order of equal keys
preserved, dedup-then-sort and sort-then-dedup-first agree). -/
theorem clean_data_dedup_policy (l : List Row) :
    ((clean_data l).map dkey).Nodup
    ∧ (∀ k, k ∈ (clean_data l).map dkey ↔ k ∈ l.map dkey)
    ∧ (clean_data l).map dkey = (cleanDedupSort l).map dkey
    ∧ ∀ r ∈ cleanDedupSort l,
        (List.insertionSort sle l).find? (fun y => decide (dkey y = dkey r)) =
          some r := by
  refine ⟨clean_data_keys_nodup l, ?_, clean_data_map_dkey l, ?_⟩
  · intro k
    rw [clean_data_map_dkey]
    have hperm : (cleanDedupSort l).Perm (dedupFirst l) :=
      List.perm_insertionSort sle (dedupFirst l)
    rw [(hperm.map dkey).mem_iff]
    exact mem_keys_dedupFirst l k
  · intro r hr
    rw [cleanDedupSort] at hr
    have hmem : r ∈ dedupFirst l :=
      (List.perm_insertionSort sle (dedupFirst l)).subset hr
    exact insertionSort_find?_of_mem_dedupFirst hmem

/-- C4 (amended): provided every sensor column holds at least one non-missing
value among the rows retained by deduplication, the cleaned table has no
missing sensor values, every value lies inside its `VALUE_RANGES` interval,
and the row count equals the deduplicated row count (clipping and filling
never delete rows). -/
theorem clean_data_output_invariants (l : List Row)
    (h : ∀ s : Sensor, ∃ r ∈ dedupFirst l, (r.sensors s).isSome = true) :
    (∀ r ∈ clean_data l, ∀ s, (r.sensors s).isSome = true)
    ∧ (∀ r ∈ clean_data l, ∀ s x, r.sensors s = some x →
        (VALUE_RANGES s).1 ≤ x ∧ x ≤ (VALUE_RANGES s).2)
    ∧ (clean_data l).length = (dedupFirst l).length := by
  refine ⟨?_, fun r hr s x hx => clean_data_in_range l s r hr x hx,
    clean_data_length l⟩
  intro r hr s
  rcases hm : colMean (cleanDedupSort l) s with _ | x
  · exfalso
    obtain ⟨r₀, hr₀, hv⟩ := h s
    have hm2 : colMean (dedupFirst l) s = none :=
      (colMean_perm (List.perm_insertionSort sle (dedupFirst l)) s).symm.trans hm
    have hz := (colMean_none_iff _ _).1 hm2 r₀ hr₀
    rw [hz] at hv
    simp at hv
  · exact clean_data_col_some l s x hm r hr

/-- C4, counterexample to the claim as stated: on a table whose sensor
columns are entirely missing, the global column mean is itself missing, so
the missing-value fill leaves the cells missing — the cleaned output still
contains nulls. -/
theorem clean_data_allnull_null_survives :
    ¬ (∀ r ∈ clean_data [nullRow], ∀ s, (r.sensors s).isSome = true) := by
  intro hno
  have hd : dedupFirst [nullRow] = [nullRow] := by
    simp [dedupFirst]
  have hall : ∀ r ∈ cleanDedupSort [nullRow],
      r.sensors Sensor.temperature_c = none := by
    intro r hr
    rw [cleanDedupSort, hd] at hr
    have hr2 : r ∈ [nullRow] := (List.perm_insertionSort sle [nullRow]).subset hr
    rcases List.mem_singleton.1 hr2 with rfl
    rfl
  have hm : colMean (cleanDedupSort [nullRow]) Sensor.temperature_c = none :=
    (colMean_none_iff _ _).2 hall
  have hnone := clean_data_col_none [nullRow] Sensor.temperature_c hm
  have hlen : (clean_data [nullRow]).length = 1 := by
    rw [clean_data_length, hd]
    rfl
  have hne : clean_data [nullRow] ≠ [] := by
    intro hnil
    rw [hnil] at hlen
    simp at hlen
  obtain ⟨r, hr⟩ := List.exists_mem_of_ne_nil _ hne
  have h1 := hno r hr Sensor.temperature_c
  rw [hnone r hr] at h1
  simp at h1

/-- C4, witness: the amended invariants instantiated on a concrete table. -/
theorem clean_data_output_invariants_witness :
    (∀ s : Sensor, ∃ r ∈ dedupFirst flatTable, (r.sensors s).isSome = true)
    ∧ ((∀ r ∈ clean_data flatTable, ∀ s, (r.sensors s).isSome = true)
      ∧ (∀ r ∈ clean_data flatTable, ∀ s x, r.sensors s = some x →
          (VALUE_RANGES s).1 ≤ x ∧ x ≤ (VALUE_RANGES s).2)
      ∧ (clean_data flatTable).length = (dedupFirst flatTable).length) := by
  have hhyp : ∀ s : Sensor, ∃ r ∈ dedupFirst flatTable,
      (r.sensors s).isSome = true := by
    intro s
    have hd : dedupFirst flatTable = flatTable := by
      simp [dedupFirst, flatTable, constRow, dkey]
    rw [hd]
    exact ⟨constRow 0 0 60, by simp [flatTable], rfl⟩
  exact ⟨hhyp, clean_data_output_invariants flatTable hhyp⟩

/-! ### Lemmas: z-scores on constant partitions -/

theorem sum_of_all_eq {vs : List ℚ} {x : ℚ} (h : ∀ v ∈ vs, v = x) :
    vs.sum = vs.length * x := by
  induction vs with
  | nil => simp
  | cons a l ih =>
      rw [List.sum_cons, h a (List.mem_cons_self a l),
        ih fun v hv => h v (List.mem_cons_of_mem a hv), List.length_cons]
      push_cast
      ring

theorem sampleVar_of_all_eq {vs : List ℚ} {x : ℚ} (h : ∀ v ∈ vs, v = x) :
    sampleVar vs = 0 := by
  by_cases hnil : vs = []
  · subst hnil
    rw [sampleVar]
    simp
  · have hlen0 : vs.length ≠ 0 :=
      fun h0 => hnil (List.eq_nil_of_length_eq_zero h0)
    have hlen : (vs.length : ℚ) ≠ 0 := Nat.cast_ne_zero.2 hlen0
    have hmean : vs.sum / vs.length = x := by
      rw [sum_of_all_eq h, mul_comm, mul_div_assoc, div_self hlen, mul_one]
    rw [sampleVar]
    have hz : (vs.map fun v => (v - vs.sum / vs.length) ^ 2).sum = 0 := by
      refine List.sum_eq_zero fun y hy => ?_
      rcases List.mem_map.1 hy with ⟨v, hv, rfl⟩
      rw [hmean, h v hv, sub_self]
      ring
    rw [hz, zero_div]

theorem partitionVals_all_eq (l : List Row) (m : Nat) (s : Sensor) (x : ℚ)
    (h : ∀ r ∈ l, r.machine_id = m → r.sensors s = some x) :
    ∀ v ∈ partitionVals l m s, v = x := by
  intro v hv
  rw [partitionVals] at hv
  rcases List.mem_filterMap.1 hv with ⟨r, hr, hval⟩
  have hm : r.machine_id = m := by
    have := (List.mem_filter.1 hr).2
    simpa using this
  have := h r (List.mem_filter.1 hr).1 hm
  rw [this] at hval
  exact (Option.some.inj hval).symm

theorem partitionVals_nil_of_none (l : List Row) (m : Nat) (s : Sensor)
    (h : ∀ r ∈ l, r.machine_id = m → r.sensors s = none) :
    partitionVals l m s = [] := by
  rw [partitionVals]
  refine List.filterMap_eq_nil_iff.2 fun r hr => ?_
  have hm : r.machine_id = m := by
    have := (List.mem_filter.1 hr).2
    simpa using this
  exact h r (List.mem_filter.1 hr).1 hm

theorem pDenomSq_none_of_const (l : List Row) (m : Nat) (s : Sensor)
    (c : Option ℚ) (h : ∀ r ∈ l, r.machine_id = m → r.sensors s = c) :
    pDenomSq l m s = none := by
  rcases c with _ | x
  · have hnil := partitionVals_nil_of_none l m s h
    rw [pDenomSq, pVar, hnil]
    simp
  · have hx := partitionVals_all_eq l m s x h
    rw [pDenomSq, pVar]
    by_cases hlen : (partitionVals l m s).length < 2
    · rw [if_pos hlen]
    · rw [if_neg hlen, sampleVar_of_all_eq hx]
      simp

theorem zmatch_eq_zero (a b : Option ℚ) :
    (match a, b, (none : Option ℚ) with
      | some x, some μ, some v => (x - μ) ^ 2 / v
      | _, _, _ => (0 : ℚ)) = 0 := by
  rcases a with _ | x <;> rcases b with _ | y <;> rfl

/-! ### Claim theorem: constant partitions are never z-flagged -/

/-- C1: in a machine partition where a scored sensor column is constant,
`compute_z_scores` assigns that sensor the z-score `0` on every row of the
partition (the zero or undefined standard deviation is replaced by `NaN`
and the score filled with `0`); consequently, when every scored sensor is
constant over the partition, `flag_zscore_anomalies` leaves
`anomaly_zscore = false` on all its rows for any positive threshold.
Stated in the squared model: `zscore_sq = 0` is `z = 0`. -/
theorem zscore_constant_partition (l : List Row) (cols : List Sensor)
    (t : ℚ) (m : Nat) (cvals : Sensor → Option ℚ) (ht : 0 < t)
    (hall : ∀ s ∈ cols, ∀ r ∈ l, r.machine_id = m → r.sensors s = cvals s) :
    (∀ s ∈ cols, ∀ c : Option ℚ,
      (∀ r ∈ l, r.machine_id = m → r.sensors s = c) →
      ∀ zr ∈ compute_z_scores l cols, zr.row.machine_id = m →
        zr.zscore_sq s = 0)
    ∧ (∀ fr ∈ flag_zscore_anomalies (compute_z_scores l cols) cols t,
        fr.zrow.row.machine_id = m → fr.anomaly_zscore = false) := by
  have part1 : ∀ s ∈ cols, ∀ c : Option ℚ,
      (∀ r ∈ l, r.machine_id = m → r.sensors s = c) →
      ∀ zr ∈ compute_z_scores l cols, zr.row.machine_id = m →
        zr.zscore_sq s = 0 := by
    intro s hs c hc zr hzr hm
    rw [compute_z_scores] at hzr
    rcases List.mem_map.1 hzr with ⟨r, _, rfl⟩
    show (if s ∈ cols then _ else 0) = 0
    rw [if_pos hs]
    have hmr : r.machine_id = m := hm
    rw [hmr]
    rw [pDenomSq_none_of_const l m s c hc]
    exact zmatch_eq_zero _ _
  refine ⟨part1, ?_⟩
  intro fr hfr hm
  rw [flag_zscore_anomalies] at hfr
  rcases List.mem_map.1 hfr with ⟨zr, hzr, rfl⟩
  show (cols.any fun s =>
    decide (t < 0) || decide (t ^ 2 < zr.zscore_sq s)) = false
  rw [List.any_eq_false]
  intro s hs
  have hz : zr.zscore_sq s = 0 :=
    part1 s hs (cvals s) (hall s hs) zr hzr hm
  rw [hz]
  have h1 : ¬ t < 0 := not_lt.2 ht.le
  have h2 : ¬ t ^ 2 < 0 := not_lt.2 (sq_nonneg t)
  simp [h1, h2]

/-- C1, witness: a three-row single-machine table with every sensor constant
at `60` is never z-flagged at the default threshold `3`. -/
theorem zscore_constant_partition_witness :
    (0 : ℚ) < 3
    ∧ ((∀ s ∈ SENSOR_COLS, ∀ c : Option ℚ,
        (∀ r ∈ flatTable, r.machine_id = 0 → r.sensors s = c) →
        ∀ zr ∈ compute_z_scores flatTable SENSOR_COLS,
          zr.row.machine_id = 0 → zr.zscore_sq s = 0)
      ∧ (∀ fr ∈ flag_zscore_anomalies
            (compute_z_scores flatTable SENSOR_COLS) SENSOR_COLS 3,
          fr.zrow.row.machine_id = 0 → fr.anomaly_zscore = false)) := by
  have ht : (0 : ℚ) < 3 := by norm_num
  refine ⟨ht, zscore_constant_partition flatTable SENSOR_COLS 3 0
    (fun _ => some 60) ht ?_⟩
  intro s _ r hr _
  have : r = constRow 0 0 60 ∨ r = constRow 0 1 60 ∨ r = constRow 0 2 60 := by
    simpa [flatTable] using hr
  rcases this with rfl | rfl | rfl <;> rfl

/-! ### Claim theorem: the combiner -/

/-- C3: `combined_anomaly_score` sets `anomaly_combined` to
`anomaly_zscore OR anomaly_iqr` on every row, exactly, and row `i` of the
output is a function of row `i` of the input alone (all other fields are
carried over unchanged, no other state enters). -/
theorem combined_flag_is_or (df : List IRow) :
    (combined_anomaly_score df).length = df.length
    ∧ ∀ i (h : i < df.length),
        (combined_anomaly_score df).get
            ⟨i, by simpa [combined_anomaly_score] using h⟩ =
          { irow := df.get ⟨i, h⟩,
            anomaly_combined :=
              (df.get ⟨i, h⟩).zfrow.anomaly_zscore ||
                (df.get ⟨i, h⟩).anomaly_iqr } := by
  refine ⟨by simp [combined_anomaly_score], ?_⟩
  intro i h
  simp [combined_anomaly_score]

/-! ### Claim theorem: the error taxonomy -/

/-- C8: `load_data` fails with `fileNotFound` exactly when the path is
absent from the filesystem, fails with `missingColumns ms` exactly when the
file exists and `ms` is the non-empty list of required columns missing from
its header, and on a loadable, schema-complete input the whole pipeline
(cleaning, features, both scorers, combiner) runs to a value — no further
error exists downstream of the load. -/
theorem load_error_taxonomy (fs : String → Option RawFile) (p : String)
    (cols : List Sensor) (t mult : ℚ) :
    (load_data fs p = Except.error LoadError.fileNotFound ↔ fs p = none)
    ∧ (∀ ms, load_data fs p = Except.error (LoadError.missingColumns ms) ↔
        ∃ raw, fs p = some raw ∧
          ms = requiredColumns.filter (fun c => !decide (c ∈ raw.columns)) ∧
          ms ≠ [])
    ∧ (∀ raw, fs p = some raw →
        (∀ c ∈ requiredColumns, c ∈ raw.columns) →
        run_full_pipeline fs p cols t mult =
          Except.ok (run_anomaly_detection
            ((engineer_features (clean_data raw.table)).map FRow.row)
            cols t mult)) := by
  rcases hfs : fs p with _ | raw
  · refine ⟨by simp [load_data, hfs], ?_, ?_⟩
    · intro ms
      simp [load_data, hfs]
    · intro raw hraw
      exact absurd hraw (by simp)
  · have hload : load_data fs p =
        (if (requiredColumns.filter fun c => !decide (c ∈ raw.columns)).isEmpty
          then Except.ok raw.table
          else Except.error (LoadError.missingColumns
            (requiredColumns.filter fun c => !decide (c ∈ raw.columns)))) := by
      simp [load_data, hfs]
    refine ⟨?_, ?_, ?_⟩
    · rw [hload]
      by_cases he : (requiredColumns.filter
          fun c => !decide (c ∈ raw.columns)).isEmpty
      · simp [he]
      · simp [he]
    · intro ms
      rw [hload]
      by_cases he : (requiredColumns.filter
          fun c => !decide (c ∈ raw.columns)).isEmpty
      · rw [if_pos he]
        constructor
        · intro h
          exact absurd h (by simp)
        · rintro ⟨raw₂, hraw₂, hms, hne⟩
          rcases Option.some.inj hraw₂ with rfl
          rw [List.isEmpty_iff] at he
          exact absurd (hms.trans he) hne
      · rw [if_neg he]
        have hne2 : (requiredColumns.filter
            fun c => !decide (c ∈ raw.columns)) ≠ [] :=
          fun hnil => he (List.isEmpty_iff.2 hnil)
        constructor
        · intro h
          have h1 : LoadError.missingColumns
              (requiredColumns.filter fun c => !decide (c ∈ raw.columns)) =
              LoadError.missingColumns ms := Except.error.inj h
          have h2 := LoadError.missingColumns.inj h1
          exact ⟨raw, rfl, h2.symm, h2 ▸ hne2⟩
        · rintro ⟨raw₂, hraw₂, hms, _⟩
          rcases Option.some.inj hraw₂ with rfl
          rw [hms]
    · intro raw₂ hraw₂ hcomplete
      rcases Option.some.inj hraw₂ with rfl
      have hnil : (requiredColumns.filter
          fun c => !decide (c ∈ raw.columns)) = [] := by
        refine List.filter_eq_nil_iff.2 fun c hc => ?_
        simp [hcomplete c hc]
      have hok : load_data fs p = Except.ok raw.table := by
        rw [hload, hnil]
        rfl
      rw [run_full_pipeline, hok]
      rfl

/-! ### Claim theorem: determinism of the scoring pipeline -/

/-- C9: the scoring pipeline is deterministic — two runs on equal input
tables with equal configurations (sensor list, z threshold, IQR multiplier,
rolling window) produce equal output tables, in particular equal
`anomaly_zscore`, `anomaly_iqr` and `anomaly_combined` columns.  The
embedding is a pure function of its arguments; the sources contain no
randomness and read no ambient state during scoring. -/
theorem scoring_deterministic (df₁ df₂ : List Row) (cols₁ cols₂ : List Sensor)
    (t₁ t₂ m₁ m₂ : ℚ) (w₁ w₂ : Nat)
    (hdf : df₁ = df₂) (hcols : cols₁ = cols₂) (ht : t₁ = t₂) (hm : m₁ = m₂)
    (hw : w₁ = w₂) :
    full_scoring_run df₁ cols₁ t₁ m₁ w₁ = full_scoring_run df₂ cols₂ t₂ m₂ w₂
    ∧ (full_scoring_run df₁ cols₁ t₁ m₁ w₁).map
        (fun r => (r.irow.zfrow.anomaly_zscore, r.irow.anomaly_iqr,
          r.anomaly_combined)) =
      (full_scoring_run df₂ cols₂ t₂ m₂ w₂).map
        (fun r => (r.irow.zfrow.anomaly_zscore, r.irow.anomaly_iqr,
          r.anomaly_combined)) := by
  subst hdf hcols ht hm hw
  exact ⟨rfl, rfl⟩

/-- C9, witness: the determinism theorem instantiated at a concrete table
and the default configuration. -/
theorem scoring_deterministic_witness :
    full_scoring_run flatTable SENSOR_COLS 3 (3/2) WINDOW_SIZE =
      full_scoring_run flatTable SENSOR_COLS 3 (3/2) WINDOW_SIZE
    ∧ (full_scoring_run flatTable SENSOR_COLS 3 (3/2) WINDOW_SIZE).map
        (fun r => (r.irow.zfrow.anomaly_zscore, r.irow.anomaly_iqr,
          r.anomaly_combined)) =
      (full_scoring_run flatTable SENSOR_COLS 3 (3/2) WINDOW_SIZE).map
        (fun r => (r.irow.zfrow.anomaly_zscore, r.irow.anomaly_iqr,
          r.anomaly_combined)) :=
  scoring_deterministic flatTable flatTable SENSOR_COLS SENSOR_COLS 3 3
    (3/2) (3/2) WINDOW_SIZE WINDOW_SIZE rfl rfl rfl rfl rfl

/-! ### Claim theorem: no stage mutates its caller's table -/

/-- C10: every stage begins with `df = df.copy()` and mutates only the
copy, so on the heap model the table at the caller's address is unchanged
by `clean_data`, `engineer_features`, `compute_z_scores`,
`flag_zscore_anomalies`, `flag_iqr_anomalies` and
`combined_anomaly_score`. -/
theorem stages_preserve_caller_input (σ : Store) (next a : Nat)
    (cols : List Sensor) (t : ℚ) (bounds : Sensor → Option (ℚ × ℚ))
    (h : a < next) :
    (clean_data_st σ next a).1 a = σ a
    ∧ (engineer_features_st σ next a).1 a = σ a
    ∧ (compute_z_scores_st σ next a cols).1 a = σ a
    ∧ (flag_zscore_anomalies_st σ next a cols t).1 a = σ a
    ∧ (flag_iqr_anomalies_st σ next a bounds cols).1 a = σ a
    ∧ (combined_anomaly_score_st σ next a).1 a = σ a := by
  have hne : a ≠ next := Nat.ne_of_lt h
  refine ⟨?_, ?_, ?_, ?_, ?_, ?_⟩ <;>
    simp [clean_data_st, engineer_features_st, compute_z_scores_st,
      flag_zscore_anomalies_st, flag_iqr_anomalies_st,
      combined_anomaly_score_st, Store.mutate, Store.write, hne]

/-- C10, witness: the frame property on a concrete one-table heap. -/
theorem stages_preserve_caller_input_witness :
    ((0 : Nat) < 1)
    ∧ ((clean_data_st exStore 1 0).1 0 = exStore 0
      ∧ (engineer_features_st exStore 1 0).1 0 = exStore 0
      ∧ (compute_z_scores_st exStore 1 0 SENSOR_COLS).1 0 = exStore 0
      ∧ (flag_zscore_anomalies_st exStore 1 0 SENSOR_COLS 3).1 0 = exStore 0
      ∧ (flag_iqr_anomalies_st exStore 1 0 (fun _ => none) SENSOR_COLS).1 0 =
          exStore 0
      ∧ (combined_anomaly_score_st exStore 1 0).1 0 = exStore 0) :=
  ⟨by decide, stages_preserve_caller_input exStore 1 0 SENSOR_COLS 3
    (fun _ => none) (by decide)⟩

/-! ### Lemmas and claim theorem: the IQR scorer -/

theorem iqrFlagRow_eq_true_iff (bounds : Sensor → Option (ℚ × ℚ))
    (cols : List Sensor) (r : Row) :
    iqrFlagRow bounds cols r = true ↔
      ∃ s ∈ cols, ∃ lo hi v, bounds s = some (lo, hi) ∧
        r.sensors s = some v ∧ (v < lo ∨ hi < v) := by
  rw [iqrFlagRow, List.any_eq_true]
  constructor
  · rintro ⟨s, hs, hpred⟩
    refine ⟨s, hs, ?_⟩
    rcases hb : bounds s with _ | ⟨lo, hi⟩
    · rw [hb] at hpred
      simp at hpred
    · rcases hv : r.sensors s with _ | v
      · rw [hb, hv] at hpred
        simp at hpred
      · rw [hb, hv] at hpred
        refine ⟨lo, hi, v, rfl, rfl, ?_⟩
        simpa using hpred
  · rintro ⟨s, hs, lo, hi, v, hb, hv, hcase⟩
    refine ⟨s, hs, ?_⟩
    rw [hb, hv]
    simpa using hcase

theorem sortedVals_relabel (df : List Row) (s : Sensor) (f : Nat → Nat) :
    sortedVals (df.map fun r => { r with machine_id := f r.machine_id }) s =
      sortedVals df s := by
  rw [sortedVals, sortedVals, List.filterMap_map]
  rfl

theorem iqr_example_sortedVals :
    sortedVals iqrTable Sensor.temperature_c = [1, 2, 3, 4, 100] := by
  norm_num [sortedVals, iqrTable, tempRow, List.insertionSort,
    List.orderedInsert]

theorem iqr_example_q1 :
    quantile iqrTable Sensor.temperature_c (1/4) = some 2 := by
  rw [quantile, iqr_example_sortedVals, quantileSorted, if_neg (by simp)]
  norm_num [interpAt, List.getD, Int.toNat_natCast, Int.toNat_ofNat]

theorem iqr_example_q3 :
    quantile iqrTable Sensor.temperature_c (3/4) = some 4 := by
  rw [quantile, iqr_example_sortedVals, quantileSorted, if_neg (by simp)]
  have ht3 : Int.toNat 3 = 3 := by omega
  norm_num [interpAt, List.getD, ht3]

theorem iqr_example_bounds :
    compute_iqr_bounds iqrTable [Sensor.temperature_c] (3/2)
      Sensor.temperature_c = some (-1, 7) := by
  rw [compute_iqr_bounds, if_pos (by simp), iqr_example_q1, iqr_example_q3]
  norm_num

/-- C5: `compute_iqr_bounds` computes, per scored sensor and globally across
all machines (relabelling machines does not change the bounds), the Tukey
fences `lower = Q1 − m·(Q3 − Q1)`, `upper = Q3 + m·(Q3 − Q1)` from the
25th/75th linear-interpolation percentiles; `flag_iqr_anomalies` marks a
row iff some scored sensor value falls strictly outside its fence; and on
the concrete single-sensor column `[1, 2, 3, 4, 100]` the bounds are
`[-1, 7]` and exactly the row holding `100` is flagged. -/
theorem iqr_bounds_and_flagging :
    (∀ (df : List Row) (cols : List Sensor) (mult : ℚ) (s : Sensor)
      (q1 q3 : ℚ), s ∈ cols →
      quantile df s (1/4) = some q1 → quantile df s (3/4) = some q3 →
      compute_iqr_bounds df cols mult s =
        some (q1 - mult * (q3 - q1), q3 + mult * (q3 - q1)))
    ∧ (∀ (zdf : List ZFRow) (bounds : Sensor → Option (ℚ × ℚ))
        (cols : List Sensor), ∀ ir ∈ flag_iqr_anomalies zdf bounds cols,
        ir.anomaly_iqr = true ↔
          ∃ s ∈ cols, ∃ lo hi v, bounds s = some (lo, hi) ∧
            ir.zfrow.zrow.row.sensors s = some v ∧ (v < lo ∨ hi < v))
    ∧ (∀ (df : List Row) (cols : List Sensor) (mult : ℚ) (f : Nat → Nat),
        compute_iqr_bounds (df.map fun r => { r with machine_id := f r.machine_id })
          cols mult = compute_iqr_bounds df cols mult)
    ∧ compute_iqr_bounds iqrTable [Sensor.temperature_c] (3/2)
        Sensor.temperature_c = some (-1, 7)
    ∧ (flag_iqr_anomalies iqrZF
        (compute_iqr_bounds iqrTable [Sensor.temperature_c] (3/2))
        [Sensor.temperature_c]).map (fun ir => ir.anomaly_iqr) =
      [false, false, false, false, true] := by
  refine ⟨?_, ?_, ?_, ?_, ?_⟩
  · intro df cols mult s q1 q3 hs hq1 hq3
    rw [compute_iqr_bounds]
    rw [if_pos hs, hq1, hq3]
  · intro zdf bounds cols ir hir
    rw [flag_iqr_anomalies] at hir
    rcases List.mem_map.1 hir with ⟨zfr, _, rfl⟩
    exact iqrFlagRow_eq_true_iff bounds cols zfr.zrow.row
  · intro df cols mult f
    funext s
    simp only [compute_iqr_bounds, quantile, sortedVals_relabel]
  · exact iqr_example_bounds
  · generalize hB : compute_iqr_bounds iqrTable [Sensor.temperature_c] (3/2) = B
    have hBval : B Sensor.temperature_c = some (-1, 7) := by
      rw [← hB]
      exact iqr_example_bounds
    norm_num [iqrZF, iqrTable, flag_iqr_anomalies, iqrFlagRow, tempRow,
      List.any, hBval]

/-! ### Lemmas and claim theorem: the feature stage -/

theorem filterMap_id_length {w : List (Option ℚ)}
    (h : ∀ o ∈ w, o.isSome = true) :
    (w.filterMap id).length = w.length := by
  induction w with
  | nil => rfl
  | cons o l ih =>
      rcases ho : o with _ | x
      · have := h o (by rw [ho]; exact List.mem_cons_self _ _)
        rw [ho] at this
        simp at this
      · rw [List.filterMap_cons]
        simp only [id]
        rw [List.length_cons, List.length_cons,
          ih fun o₂ ho₂ => h o₂ (List.mem_cons_of_mem _ ho₂)]

theorem engineer_features_w_length (w : Nat) (df : List Row) :
    (engineer_features_w w df).length = df.length := by
  rw [engineer_features_w]
  simp only [List.length_map, List.enum_eq_enumFrom, List.enumFrom_length]
  exact List.length_insertionSort sle df

theorem engineer_features_w_get (w : Nat) (df : List Row) (i : Nat)
    (hi : i < (engineer_features_w w df).length)
    (hi2 : i < (List.insertionSort sle df).length) :
    (engineer_features_w w df).get ⟨i, hi⟩ =
      mkFRow w (List.insertionSort sle df) i
        ((List.insertionSort sle df).get ⟨i, hi2⟩) := by
  unfold engineer_features_w at hi ⊢
  simp [List.get_eq_getElem, List.getElem_map, List.enum_eq_enumFrom,
    List.getElem_enumFrom]

theorem groupPrefix_all_some {l₂ : List Row} (i m : Nat) (s : Sensor)
    (h : ∀ r ∈ l₂, (r.sensors s).isSome = true) :
    ∀ o ∈ groupPrefix l₂ i m s, o.isSome = true := by
  intro o ho
  rw [groupPrefix] at ho
  rcases List.mem_map.1 ho with ⟨r, hr, rfl⟩
  exact h r (List.mem_of_mem_take (List.mem_filter.1 hr).1)

theorem groupPrefix_length_pos (l₂ : List Row) (i : Nat)
    (hi : i < l₂.length) (s : Sensor) :
    0 < (groupPrefix l₂ i (l₂.get ⟨i, hi⟩).machine_id s).length := by
  rw [groupPrefix, List.length_map]
  refine List.length_pos_of_mem (a := l₂.get ⟨i, hi⟩) ?_
  refine List.mem_filter.2 ⟨?_, by simp⟩
  refine List.mem_iff_getElem?.2 ⟨i, ?_⟩
  rw [List.getElem?_take_of_succ, List.getElem?_eq_getElem hi]
  rfl

theorem windowVals_length_of_some (w : Nat) (p : List (Option ℚ))
    (h : ∀ o ∈ p, o.isSome = true) :
    (windowVals w p).length = min p.length w := by
  rw [windowVals,
    filterMap_id_length fun o ho => h o ((List.drop_sublist _ _).subset ho),
    List.length_drop]
  omega

theorem rollVar_single (w : Nat) (p : List (Option ℚ)) (hp : p.length = 1) :
    rollVar w p = 0 := by
  have h1 : (windowVals w p).length ≤ (p.drop (p.length - w)).length := by
    rw [windowVals]
    exact List.length_filterMap_le _ _
  have h2 : (p.drop (p.length - w)).length = p.length - (p.length - w) :=
    List.length_drop _ _
  rw [rollVar, if_pos (by omega)]

theorem diffVal_single (p : List (Option ℚ)) (hp : p.length = 1) :
    diffVal p = 0 := by
  have hdl : p.dropLast = [] := by
    refine List.eq_nil_of_length_eq_zero ?_
    rw [List.length_dropLast, hp]
  rw [diffVal, hdl, List.getLast?_nil]
  rcases p.getLast? with _ | o
  · rfl
  · rcases o with _ | a <;> rfl

/-- C6: on a cleaned (null-free) table, `engineer_features` derives, per
sensor within each `(machine_id, timestamp)`-ordered machine partition, a
trailing rolling mean over a window of `WINDOW_SIZE = 10` readings whose
window holds `min (position+1) 10` observations (never fewer than one), a
rolling standard deviation whose single-point windows are `0` rather than
undefined (stated on `roll_var`, the squared deviation), and a first
difference that is `0` on the first row of each partition; and no derived
cell is null (`roll_mean` is always `some`; `roll_var` and `diff` are
total rationals by construction). -/
theorem engineer_features_windows (l : List Row)
    (h : ∀ r ∈ l, ∀ s, (r.sensors s).isSome = true) :
    (engineer_features l).length = l.length
    ∧ (∀ fr ∈ engineer_features l, ∀ s, (fr.roll_mean s).isSome = true)
    ∧ (∀ i (hi : i < (engineer_features l).length) (s : Sensor)
        (p : List (Option ℚ)),
        p = groupPrefix (List.insertionSort sle l) i
            (((engineer_features l).get ⟨i, hi⟩).row.machine_id) s →
        ((engineer_features l).get ⟨i, hi⟩).roll_mean s =
            some ((windowVals WINDOW_SIZE p).sum /
              ((windowVals WINDOW_SIZE p).length : ℚ))
        ∧ (windowVals WINDOW_SIZE p).length = min p.length WINDOW_SIZE
        ∧ 1 ≤ (windowVals WINDOW_SIZE p).length
        ∧ (p.length = 1 →
            ((engineer_features l).get ⟨i, hi⟩).roll_var s = 0
            ∧ ((engineer_features l).get ⟨i, hi⟩).diff s = 0)) := by
  have hlen : (engineer_features l).length = l.length :=
    engineer_features_w_length WINDOW_SIZE l
  have hslen : (List.insertionSort sle l).length = l.length :=
    List.length_insertionSort sle l
  have hsub : ∀ r ∈ List.insertionSort sle l, r ∈ l :=
    fun r hr => (List.perm_insertionSort sle l).subset hr
  have key : ∀ i (hi : i < (engineer_features l).length) (s : Sensor)
      (p : List (Option ℚ)),
      p = groupPrefix (List.insertionSort sle l) i
          (((engineer_features l).get ⟨i, hi⟩).row.machine_id) s →
      ((engineer_features l).get ⟨i, hi⟩).roll_mean s =
          some ((windowVals WINDOW_SIZE p).sum /
            ((windowVals WINDOW_SIZE p).length : ℚ))
      ∧ (windowVals WINDOW_SIZE p).length = min p.length WINDOW_SIZE
      ∧ 1 ≤ (windowVals WINDOW_SIZE p).length
      ∧ (p.length = 1 →
          ((engineer_features l).get ⟨i, hi⟩).roll_var s = 0
          ∧ ((engineer_features l).get ⟨i, hi⟩).diff s = 0) := by
    intro i hi s p hp
    have hi2 : i < (List.insertionSort sle l).length := by
      rw [hslen, ← hlen]
      exact hi
    have hget : (engineer_features l).get ⟨i, hi⟩ =
        mkFRow WINDOW_SIZE (List.insertionSort sle l) i
          ((List.insertionSort sle l).get ⟨i, hi2⟩) :=
      engineer_features_w_get WINDOW_SIZE l i hi hi2
    rw [hget] at hp ⊢
    rw [show (mkFRow WINDOW_SIZE (List.insertionSort sle l) i
        ((List.insertionSort sle l).get ⟨i, hi2⟩)).row =
        (List.insertionSort sle l).get ⟨i, hi2⟩ from rfl] at hp
    subst hp
    have hsomeP : ∀ o ∈ groupPrefix (List.insertionSort sle l) i
        ((List.insertionSort sle l).get ⟨i, hi2⟩).machine_id s,
        o.isSome = true :=
      groupPrefix_all_some i _ s fun r hr => h r (hsub r hr) s
    have hpos := groupPrefix_length_pos (List.insertionSort sle l) i hi2 s
    have hwlen := windowVals_length_of_some WINDOW_SIZE _ hsomeP
    have h10 : WINDOW_SIZE = 10 := rfl
    have h1le : 1 ≤ (windowVals WINDOW_SIZE
        (groupPrefix (List.insertionSort sle l) i
          ((List.insertionSort sle l).get ⟨i, hi2⟩).machine_id s)).length := by
      rw [hwlen]
      omega
    have hne : windowVals WINDOW_SIZE
        (groupPrefix (List.insertionSort sle l) i
          ((List.insertionSort sle l).get ⟨i, hi2⟩).machine_id s) ≠ [] := by
      intro hnil
      rw [hnil] at h1le
      simp at h1le
    refine ⟨?_, hwlen, h1le, ?_⟩
    · show rollMean WINDOW_SIZE _ = _
      rw [rollMean, if_neg hne]
    · intro hp1
      exact ⟨rollVar_single WINDOW_SIZE _ hp1, diffVal_single _ hp1⟩
  refine ⟨hlen, ?_, key⟩
  intro fr hfr s
  rcases List.mem_iff_get.1 hfr with ⟨⟨i, hik⟩, rfl⟩
  have hmean := (key i hik s _ rfl).1
  rw [hmean]
  rfl

/-- C6, witness: the feature-stage properties instantiated on a concrete
null-free table. -/
theorem engineer_features_windows_witness :
    (∀ r ∈ flatTable, ∀ s, (r.sensors s).isSome = true)
    ∧ ((engineer_features flatTable).length = flatTable.length
      ∧ (∀ fr ∈ engineer_features flatTable, ∀ s,
          (fr.roll_mean s).isSome = true)
      ∧ (∀ i (hi : i < (engineer_features flatTable).length) (s : Sensor)
          (p : List (Option ℚ)),
          p = groupPrefix (List.insertionSort sle flatTable) i
              (((engineer_features flatTable).get ⟨i, hi⟩).row.machine_id) s →
          ((engineer_features flatTable).get ⟨i, hi⟩).roll_mean s =
              some ((windowVals WINDOW_SIZE p).sum /
                ((windowVals WINDOW_SIZE p).length : ℚ))
          ∧ (windowVals WINDOW_SIZE p).length = min p.length WINDOW_SIZE
          ∧ 1 ≤ (windowVals WINDOW_SIZE p).length
          ∧ (p.length = 1 →
              ((engineer_features flatTable).get ⟨i, hi⟩).roll_var s = 0
              ∧ ((engineer_features flatTable).get ⟨i, hi⟩).diff s = 0))) := by
  have hnull : ∀ r ∈ flatTable, ∀ s, (r.sensors s).isSome = true := by
    intro r hr s
    have : r = constRow 0 0 60 ∨ r = constRow 0 1 60 ∨ r = constRow 0 2 60 := by
      simpa [flatTable] using hr
    rcases this with rfl | rfl | rfl <;> rfl
  exact ⟨hnull, engineer_features_windows flatTable hnull⟩

end PredMaint
